import Mathlib

/-!
Verification of the cobble build-system core (`src/cobble/env.py`,
`src/cobble/target/__init__.py`, `src/cobble/project.py`) against its
specification.

The Python sources are shallowly embedded as executable Lean definitions:

* Python values that may enter an environment are modelled by the inductive
  type `PyVal` (strings, booleans, `None`, tuples, frozensets, lists, sets).
  A Python `frozenset` is represented canonically as a duplicate-free list
  sorted by a fixed total order (`canonSet`); this stands in for Python's
  unordered hash sets, whose iteration order is unspecified.  Wherever the
  Python code iterates a set, the model iterates the canonical list.
* Exceptions are modelled by the error type `Err`, with one constructor per
  `raise`/`assert` site, and fallible code returns `Except Err _`.
* A single key registry is in scope for one evaluation, so `Env` carries
  only the mapping; the registry is passed explicitly to every operation
  (Python compares registries by object identity, which the embedding
  realises by using one registry value throughout a development).
* The environment digest (SHA-1 of a pickle) is out of scope; where the
  code uses `digest` only as a deterministic sort key (`_topo_sort`), the
  model uses a canonical injective encoding of the environment instead.
* Python's unbounded recursion in `Target.evaluate` is modelled with an
  explicit fuel parameter; running out of fuel is the distinguished error
  `Err.fuelExhausted`, which no Python code path produces.
-/

namespace Cobble

/-- Model of the Python values handled by `cobble.env`: `str`, `bool`,
`None`, `tuple`, `frozenset`, `list` and `set`, arbitrarily nested. -/
inductive PyVal : Type where
  | vstr : String → PyVal
  | vbool : Bool → PyVal
  | vnone : PyVal
  | vtuple : List PyVal → PyVal
  | vfrozenset : List PyVal → PyVal
  | vlist : List PyVal → PyVal
  | vset : List PyVal → PyVal

open PyVal

mutual

/-- Boolean structural equality on `PyVal` (Python `==` on the modelled
values, given that frozensets are kept in canonical form). -/
def PyVal.beq : PyVal → PyVal → Bool
  | vstr a, vstr b => a == b
  | vbool a, vbool b => a == b
  | vnone, vnone => true
  | vtuple a, vtuple b => PyVal.beqL a b
  | vfrozenset a, vfrozenset b => PyVal.beqL a b
  | vlist a, vlist b => PyVal.beqL a b
  | vset a, vset b => PyVal.beqL a b
  | _, _ => false

/-- Elementwise `PyVal.beq` on lists. -/
def PyVal.beqL : List PyVal → List PyVal → Bool
  | [], [] => true
  | a :: as, b :: bs => PyVal.beq a b && PyVal.beqL as bs
  | _, _ => false

end

mutual

theorem PyVal.beq_iff : ∀ a b : PyVal, PyVal.beq a b = true ↔ a = b
  | vstr _, vstr _ => by simp [PyVal.beq]
  | vstr _, vbool _ => by simp [PyVal.beq]
  | vstr _, vnone => by simp [PyVal.beq]
  | vstr _, vtuple _ => by simp [PyVal.beq]
  | vstr _, vfrozenset _ => by simp [PyVal.beq]
  | vstr _, vlist _ => by simp [PyVal.beq]
  | vstr _, vset _ => by simp [PyVal.beq]
  | vbool _, vbool _ => by simp [PyVal.beq]
  | vbool _, vstr _ => by simp [PyVal.beq]
  | vbool _, vnone => by simp [PyVal.beq]
  | vbool _, vtuple _ => by simp [PyVal.beq]
  | vbool _, vfrozenset _ => by simp [PyVal.beq]
  | vbool _, vlist _ => by simp [PyVal.beq]
  | vbool _, vset _ => by simp [PyVal.beq]
  | vnone, vnone => by simp [PyVal.beq]
  | vnone, vstr _ => by simp [PyVal.beq]
  | vnone, vbool _ => by simp [PyVal.beq]
  | vnone, vtuple _ => by simp [PyVal.beq]
  | vnone, vfrozenset _ => by simp [PyVal.beq]
  | vnone, vlist _ => by simp [PyVal.beq]
  | vnone, vset _ => by simp [PyVal.beq]
  | vtuple a, vtuple b => by simp [PyVal.beq, PyVal.beqL_iff a b]
  | vtuple _, vstr _ => by simp [PyVal.beq]
  | vtuple _, vbool _ => by simp [PyVal.beq]
  | vtuple _, vnone => by simp [PyVal.beq]
  | vtuple _, vfrozenset _ => by simp [PyVal.beq]
  | vtuple _, vlist _ => by simp [PyVal.beq]
  | vtuple _, vset _ => by simp [PyVal.beq]
  | vfrozenset a, vfrozenset b => by simp [PyVal.beq, PyVal.beqL_iff a b]
  | vfrozenset _, vstr _ => by simp [PyVal.beq]
  | vfrozenset _, vbool _ => by simp [PyVal.beq]
  | vfrozenset _, vnone => by simp [PyVal.beq]
  | vfrozenset _, vtuple _ => by simp [PyVal.beq]
  | vfrozenset _, vlist _ => by simp [PyVal.beq]
  | vfrozenset _, vset _ => by simp [PyVal.beq]
  | vlist a, vlist b => by simp [PyVal.beq, PyVal.beqL_iff a b]
  | vlist _, vstr _ => by simp [PyVal.beq]
  | vlist _, vbool _ => by simp [PyVal.beq]
  | vlist _, vnone => by simp [PyVal.beq]
  | vlist _, vtuple _ => by simp [PyVal.beq]
  | vlist _, vfrozenset _ => by simp [PyVal.beq]
  | vlist _, vset _ => by simp [PyVal.beq]
  | vset a, vset b => by simp [PyVal.beq, PyVal.beqL_iff a b]
  | vset _, vstr _ => by simp [PyVal.beq]
  | vset _, vbool _ => by simp [PyVal.beq]
  | vset _, vnone => by simp [PyVal.beq]
  | vset _, vtuple _ => by simp [PyVal.beq]
  | vset _, vfrozenset _ => by simp [PyVal.beq]
  | vset _, vlist _ => by simp [PyVal.beq]

theorem PyVal.beqL_iff : ∀ as bs : List PyVal, PyVal.beqL as bs = true ↔ as = bs
  | [], [] => by simp [PyVal.beqL]
  | [], _ :: _ => by simp [PyVal.beqL]
  | _ :: _, [] => by simp [PyVal.beqL]
  | a :: as, b :: bs => by
      simp [PyVal.beqL, PyVal.beq_iff a b, PyVal.beqL_iff as bs]

end

instance : DecidableEq PyVal := fun a b => decidable_of_iff _ (PyVal.beq_iff a b)

/-- Injective encoding of a list of naturals into a natural number, used
to build the fixed total order on `PyVal`. -/
def encNL : List Nat → Nat
  | [] => 0
  | n :: l => Nat.pair n (encNL l) + 1

/-- Encoding of a string, character by character. -/
def encStr (s : String) : Nat := encNL (s.data.map Char.toNat)

mutual

/-- Encoding of a `PyVal` into a natural number.  Only the induced total
order matters: it fixes a canonical element order for modelled frozensets
(standing in for Python's unspecified set iteration order) and provides
the deterministic stand-in for digest-based tie-breaking in `_topo_sort`. -/
def enc : PyVal → Nat
  | vstr s => Nat.pair 0 (encStr s)
  | vbool b => Nat.pair 1 (cond b 1 0)
  | vnone => Nat.pair 2 0
  | vtuple l => Nat.pair 3 (encPL l)
  | vfrozenset l => Nat.pair 4 (encPL l)
  | vlist l => Nat.pair 5 (encPL l)
  | vset l => Nat.pair 6 (encPL l)

/-- Encoding of a list of `PyVal`s. -/
def encPL : List PyVal → Nat
  | [] => 0
  | x :: xs => Nat.pair (enc x) (encPL xs) + 1

end

/-- The fixed total order on `PyVal` used for canonical set representation. -/
def pyLe (a b : PyVal) : Prop := enc a ≤ enc b

instance : DecidableRel pyLe := fun _ _ => Nat.decLe _ _

instance : IsTotal PyVal pyLe := ⟨fun _ _ => Nat.le_total _ _⟩

instance : IsTrans PyVal pyLe := ⟨fun _ _ _ => Nat.le_trans⟩

/-- Canonical representation of the contents of a Python `frozenset`:
duplicates removed, elements in the fixed total order.  Every operation of
the model that builds a frozenset goes through `canonSet`, so structural
equality of `PyVal` coincides with Python `==`. -/
def canonSet (l : List PyVal) : List PyVal := List.insertionSort pyLe l.dedup

theorem canonSet_idem (l : List PyVal) : canonSet (canonSet l) = canonSet l := by
  unfold canonSet
  rw [List.Nodup.dedup (((List.perm_insertionSort pyLe l.dedup).symm).nodup
        (List.nodup_dedup l)),
      List.Sorted.insertionSort_eq (List.sorted_insertionSort pyLe l.dedup)]

theorem canonSet_mem {x : PyVal} {l : List PyVal} : x ∈ canonSet l ↔ x ∈ l := by
  unfold canonSet
  rw [(List.perm_insertionSort pyLe l.dedup).mem_iff, List.mem_dedup]

mutual

/-- Embedding of `cobble.env.freeze`: strings, booleans and `None` pass
through, sets and frozensets become (canonical) frozensets of frozen
elements, lists and tuples become tuples of frozen elements.  The Python
`TypeError` branch for any other input is outside the modelled value type. -/
def freeze : PyVal → PyVal
  | vstr s => vstr s
  | vbool b => vbool b
  | vnone => vnone
  | vset l => vfrozenset (canonSet (freezeL l))
  | vfrozenset l => vfrozenset (canonSet (freezeL l))
  | vlist l => vtuple (freezeL l)
  | vtuple l => vtuple (freezeL l)

/-- Elementwise `freeze`. -/
def freezeL : List PyVal → List PyVal
  | [] => []
  | x :: xs => freeze x :: freezeL xs

end

mutual

/-- Embedding of `cobble.env.is_frozen`: checks that a value consists only
of `str`, `bool`, `None`, `frozenset` and `tuple`. -/
def is_frozen : PyVal → Bool
  | vstr _ => true
  | vbool _ => true
  | vnone => true
  | vfrozenset l => is_frozenL l
  | vtuple l => is_frozenL l
  | vlist _ => false
  | vset _ => false

/-- Conjunction of `is_frozen` over a list (Python `all(...)`). -/
def is_frozenL : List PyVal → Bool
  | [] => true
  | x :: xs => is_frozen x && is_frozenL xs

end

theorem freezeL_eq_map (l : List PyVal) : freezeL l = l.map freeze := by
  induction l with
  | nil => rfl
  | cons x xs ih => simp [freezeL, ih]

theorem is_frozenL_eq_all (l : List PyVal) : is_frozenL l = l.all is_frozen := by
  induction l with
  | nil => rfl
  | cons x xs ih => simp [is_frozenL, ih]

theorem sizeOf_le_of_mem {x : PyVal} {l : List PyVal} (h : x ∈ l) :
    sizeOf x < sizeOf l := List.sizeOf_lt_of_mem h

theorem freeze_props :
    ∀ (n : Nat) (x : PyVal), sizeOf x ≤ n →
      freeze (freeze x) = freeze x ∧ is_frozen (freeze x) = true := by
  intro n
  induction n with
  | zero =>
      intro x hx
      exfalso
      cases x <;> simp_all
  | succ n ih =>
      intro x hx
      have elem : ∀ l : List PyVal, sizeOf l ≤ n + 1 →
          ∀ y ∈ l.map freeze, freeze y = y ∧ is_frozen y = true := by
        intro l hl y hy
        rcases List.mem_map.mp hy with ⟨z, hz, rfl⟩
        have hzn : sizeOf z ≤ n := by
          have := sizeOf_le_of_mem hz
          omega
        exact ih z hzn
      have elemC : ∀ l : List PyVal, sizeOf l ≤ n + 1 →
          (canonSet (freezeL l)).map freeze = canonSet (freezeL l) ∧
          is_frozenL (canonSet (freezeL l)) = true := by
        intro l hl
        constructor
        · have : ∀ y ∈ canonSet (freezeL l), freeze y = id y := by
            intro y hy
            have : y ∈ l.map freeze := by
              rw [← freezeL_eq_map]
              exact canonSet_mem.mp hy
            exact (elem l hl y (freezeL_eq_map l ▸ this)).1
          rw [List.map_congr_left this, List.map_id]
        · rw [is_frozenL_eq_all, List.all_eq_true]
          intro y hy
          have hy' : y ∈ l.map freeze := by
            rw [← freezeL_eq_map]
            exact canonSet_mem.mp hy
          exact (elem l hl y hy').2
      have elemT : ∀ l : List PyVal, sizeOf l ≤ n + 1 →
          (freezeL l).map freeze = freezeL l ∧ is_frozenL (freezeL l) = true := by
        intro l hl
        constructor
        · have : ∀ y ∈ l.map freeze, freeze y = id y := fun y hy => (elem l hl y hy).1
          rw [freezeL_eq_map, List.map_congr_left this, List.map_id]
        · rw [is_frozenL_eq_all, freezeL_eq_map, List.all_eq_true]
          intro y hy
          exact (elem l hl y hy).2
      cases x with
      | vstr s => exact ⟨rfl, rfl⟩
      | vbool b => exact ⟨rfl, rfl⟩
      | vnone => exact ⟨rfl, rfl⟩
      | vtuple l =>
          have hl : sizeOf l ≤ n + 1 := by simp at hx; omega
          refine ⟨?_, ?_⟩
          · show vtuple (freezeL (freezeL l)) = vtuple (freezeL l)
            rw [freezeL_eq_map (freezeL l), (elemT l hl).1]
          · show is_frozenL (freezeL l) = true
            exact (elemT l hl).2
      | vlist l =>
          have hl : sizeOf l ≤ n + 1 := by simp at hx; omega
          refine ⟨?_, ?_⟩
          · show vtuple (freezeL (freezeL l)) = vtuple (freezeL l)
            rw [freezeL_eq_map (freezeL l), (elemT l hl).1]
          · show is_frozenL (freezeL l) = true
            exact (elemT l hl).2
      | vfrozenset l =>
          have hl : sizeOf l ≤ n + 1 := by simp at hx; omega
          refine ⟨?_, ?_⟩
          · show vfrozenset (canonSet (freezeL (canonSet (freezeL l)))) =
              vfrozenset (canonSet (freezeL l))
            rw [freezeL_eq_map (canonSet (freezeL l)), (elemC l hl).1, canonSet_idem]
          · show is_frozenL (canonSet (freezeL l)) = true
            exact (elemC l hl).2
      | vset l =>
          have hl : sizeOf l ≤ n + 1 := by simp at hx; omega
          refine ⟨?_, ?_⟩
          · show vfrozenset (canonSet (freezeL (canonSet (freezeL l)))) =
              vfrozenset (canonSet (freezeL l))
            rw [freezeL_eq_map (canonSet (freezeL l)), (elemC l hl).1, canonSet_idem]
          · show is_frozenL (canonSet (freezeL l)) = true
            exact (elemC l hl).2

/-- C8: for every legal input, freezing is idempotent and produces a value
accepted by `is_frozen` (spec section 8, "Freeze idempotence"). -/
theorem freeze_idempotent_and_frozen (x : PyVal) :
    freeze (freeze x) = freeze x ∧ is_frozen (freeze x) = true :=
  freeze_props (sizeOf x) x (Nat.le_refl _)

mutual

/-- Python `repr` of a modelled value, used in error messages and by the
`str()` conversion of template substitution.  String escaping is
simplified (no claim inspects the repr of a string containing quotes). -/
def pyRepr : PyVal → String
  | vstr s => "'" ++ s ++ "'"
  | vbool b => cond b "True" "False"
  | vnone => "None"
  | vtuple [x] => "(" ++ pyRepr x ++ ",)"
  | vtuple l => "(" ++ pyReprJoin l ++ ")"
  | vfrozenset l => "frozenset(\x7b" ++ pyReprJoin l ++ "\x7d)"
  | vlist l => "[" ++ pyReprJoin l ++ "]"
  | vset l => "\x7b" ++ pyReprJoin l ++ "\x7d"

/-- Comma-separated `pyRepr` of the elements of a list. -/
def pyReprJoin : List PyVal → String
  | [] => ""
  | [x] => pyRepr x
  | x :: xs => pyRepr x ++ ", " ++ pyReprJoin xs

end

/-- Python `str()` of a modelled value (identity on strings, `repr`
otherwise, as for the types at hand). -/
def pyStr : PyVal → String
  | vstr s => s
  | x => pyRepr x

/-- Python truthiness of a modelled value. -/
def pyTruthy : PyVal → Bool
  | vstr s => !s.isEmpty
  | vbool b => b
  | vnone => false
  | vtuple l => !l.isEmpty
  | vfrozenset l => !l.isEmpty
  | vlist l => !l.isEmpty
  | vset l => !l.isEmpty

/-- An environment: the key-to-frozen-value mapping of `cobble.env.Env`.
The associated key registry is passed separately to each operation (one
registry is in scope per development, mirroring Python's identity-compared
registry reference). -/
structure Env : Type where
  dict : List (String × PyVal)
deriving DecidableEq

/-- Model of the Python exceptions raised by the embedded code, one
constructor per kind of raise site.  `evaluationError` models the
`EvaluationError` class of `cobble.target` (a cause plus a list of
`(target, env)` breadcrumbs); `fuelExhausted` is the artefact of the fuel
parameter that bounds `Target.evaluate`'s recursion in the model. -/
inductive Err : Type where
  | typeError : String → Err
  | keyError : String → Err
  | valueError : String → Err
  | assertionError : String → Err
  | exceptionMsg : String → Err
  | attributeError : String → Err
  | evaluationError : Err → List (String × Option Env) → Err
  | fuelExhausted : Err
deriving DecidableEq

/-- Association-list lookup: the model of Python `dict` indexing for the
dictionaries whose insertion order matters to the embedded code. -/
def alookup {κ β : Type} [DecidableEq κ] : List (κ × β) → κ → Option β
  | [], _ => none
  | (a, b) :: t, k => if k = a then some b else alookup t k

/-- Association-list update: assign `v` to `k`, replacing the binding in
place if present and appending otherwise (Python `d[k] = v`). -/
def insertA {κ β : Type} [DecidableEq κ] : List (κ × β) → κ → β → List (κ × β)
  | [], k, v => [(k, v)]
  | (a, b) :: t, k, v => if k = a then (k, v) :: t else (a, b) :: insertA t k v

/-- Association-list deletion (Python `del d[k]`; deleting an absent key,
which cannot arise from a Python dict-shaped delta, is a no-op here). -/
def aerase {κ β : Type} [DecidableEq κ] : List (κ × β) → κ → List (κ × β)
  | [], _ => []
  | (a, b) :: t, k => if k = a then t else (a, b) :: aerase t k

/-- Embedding of `cobble.env.EnvKey`: a key name plus optional strategy
functions, mirroring the `None` defaults of the Python constructor.
`_combine` returns `Except` because user combine functions may raise, and
`some none` ("combined to `None`") means deletion. -/
structure EnvKey : Type where
  name : String
  _from_literal : Option (PyVal → Except Err PyVal)
  _combine : Option (PyVal → PyVal → Except Err (Option PyVal))
  _default : PyVal
  _readout : Option (PyVal → PyVal)
  help : Option String

/-- Embedding of `EnvKey.__init__`, which freezes the default value. -/
def EnvKey.init (name : String) (fl : Option (PyVal → Except Err PyVal))
    (comb : Option (PyVal → PyVal → Except Err (Option PyVal)))
    (default : PyVal) (readout : Option (PyVal → PyVal))
    (help : Option String) : EnvKey :=
  ⟨name, fl, comb, freeze default, readout, help⟩

/-- Embedding of `EnvKey.from_literal` (accept anything when the strategy
function is absent). -/
def EnvKey.from_literal (k : EnvKey) (lit : PyVal) : Except Err PyVal :=
  match k._from_literal with
  | none => .ok lit
  | some f => f lit

/-- Embedding of `EnvKey.combine`: absent combine means the key requires a
unique value and merging is an assertion failure. -/
def EnvKey.combine (k : EnvKey) (lhs rhs : PyVal) : Except Err (Option PyVal) :=
  match k._combine with
  | none => .error (.assertionError ("Environment key " ++ k.name ++
      " requires a unique value, got two: " ++ pyRepr lhs ++ " and " ++ pyRepr rhs))
  | some f => f lhs rhs

/-- Embedding of `EnvKey.readout` (identity when absent). -/
def EnvKey.readout (k : EnvKey) (v : PyVal) : PyVal :=
  match k._readout with
  | none => v
  | some f => f v

/-- Embedding of the `EnvKey.default` property. -/
def EnvKey.default (k : EnvKey) : PyVal := k._default

/-- Embedding of `cobble.env.KeyRegistry` as a name-indexed association
list of key definitions. -/
structure KeyRegistry : Type where
  _keys : List (String × EnvKey)

/-- Embedding of `KeyRegistry.get`. -/
def KeyRegistry.get (r : KeyRegistry) (k : String) : Option EnvKey :=
  alookup r._keys k

/-- Fixed sort for lists of modelled values, standing in for Python
`sorted` (which, on the homogeneous string sets the code sorts, uses
string order; no claim observes the difference in order). -/
def pySorted (l : List PyVal) : List PyVal := List.insertionSort pyLe l

/-- Elements of a modelled Python iterable, in iteration order (canonical
order for the unordered collections).  Iterating the non-iterable values
is a `TypeError`; string iteration does not occur in the embedded code
because every call site rejects strings first. -/
def pyIter : PyVal → Except Err (List PyVal)
  | vtuple l => .ok l
  | vlist l => .ok l
  | vset l => .ok (canonSet l)
  | vfrozenset l => .ok l
  | x => .error (.typeError ("object is not iterable: " ++ pyRepr x))

/-- Checks that every element of a list is a modelled `str`. -/
def allStr (l : List PyVal) : Bool :=
  l.all (fun x => match x with | vstr _ => true | _ => false)

/-- Embedding of `cobble.env.overrideable_string_key`. -/
def overrideable_string_key (name : String) (default : PyVal)
    (readout : Option (PyVal → PyVal)) (help : Option String) : EnvKey :=
  EnvKey.init name
    (some fun lit => match lit with
      | vstr s => .ok (vstr s)
      | _ => .error (.assertionError ""))
    (some fun _ rhs => .ok (some rhs))
    default readout help

/-- Embedding of `cobble.env.overrideable_bool_key`. -/
def overrideable_bool_key (name : String) (readout : Option (PyVal → PyVal))
    (default : PyVal) (help : Option String) : EnvKey :=
  EnvKey.init name
    (some fun lit => match lit with
      | vbool b => .ok (vbool b)
      | _ => .error (.assertionError ""))
    (some fun _ rhs => .ok (some rhs))
    default readout help

/-- Embedding of `cobble.env.appending_string_seq_key`. -/
def appending_string_seq_key (name : String) (readout : Option (PyVal → PyVal))
    (default : List PyVal) (help : Option String) : EnvKey :=
  EnvKey.init name
    (some fun lit => match lit with
      | vstr _ => .error (.assertionError ("Expected list of strings, got: " ++ pyRepr lit))
      | _ => do
          let es ← pyIter lit
          if allStr es then .ok (vtuple es)
          else .error (.assertionError ("Expected list of strings, got: " ++ pyRepr lit)))
    (some fun lhs rhs => match lhs, rhs with
      | vtuple a, vtuple b => .ok (some (vtuple (a ++ b)))
      | _, _ => .error (.typeError "can only concatenate tuple"))
    (vtuple (freezeL default)) readout help

/-- Embedding of `cobble.env.prepending_string_seq_key`. -/
def prepending_string_seq_key (name : String) (default : List PyVal)
    (readout : Option (PyVal → PyVal)) (help : Option String) : EnvKey :=
  EnvKey.init name
    (some fun lit => match lit with
      | vstr _ => .error (.assertionError ("Expected list of strings, got: " ++ pyRepr lit))
      | _ => do
          let es ← pyIter lit
          if allStr es then .ok (vtuple es)
          else .error (.assertionError ("Expected list of strings, got: " ++ pyRepr lit)))
    (some fun lhs rhs => match lhs, rhs with
      | vtuple a, vtuple b => .ok (some (vtuple (b ++ a)))
      | _, _ => .error (.typeError "can only concatenate tuple"))
    (vtuple (freezeL default)) readout help

/-- Embedding of `cobble.env.frozenset_key`. -/
def frozenset_key (name : String) (readout : Option (PyVal → PyVal))
    (default : List PyVal) (help : Option String) : EnvKey :=
  EnvKey.init name
    (some fun lit => match lit with
      | vstr _ => .error (.assertionError ("Expected collection of strings for key "
          ++ name ++ ", got: " ++ pyRepr lit))
      | _ => do
          let es ← pyIter lit
          if allStr es then .ok (vfrozenset (canonSet es))
          else .error (.assertionError ("Expected collection of strings for key "
              ++ name ++ ", got: " ++ pyRepr lit)))
    (some fun lhs rhs => match lhs, rhs with
      | vfrozenset a, vfrozenset b => .ok (some (vfrozenset (canonSet (a ++ b))))
      | _, _ => .error (.typeError "unsupported operand type for set union"))
    (vfrozenset (canonSet (freezeL default))) readout help

/-- Embedding of `Env.__getitem__`: look the key definition up in the
registry (a `KeyError` if absent there, whatever the dict holds), then
apply its readout to the stored value or to the key's default. -/
def Env.getItem (reg : KeyRegistry) (e : Env) (k : String) : Except Err PyVal :=
  match reg.get k with
  | some kd => .ok (kd.readout ((alookup e.dict k).getD kd.default))
  | none => .error (.keyError ("Use of undefined environment key '" ++ k ++ "'"))

/-- The argument of `Env.without`: either a predicate on key names or a
container of key names (the two branches of the Python type dispatch). -/
inductive Matcher : Type where
  | pred : (String → Bool) → Matcher
  | coll : List String → Matcher

/-- Embedding of `Env.without`.  Note the predicate branch of the source
keeps exactly the keys on which the predicate is true (`if matcher(k)`),
while the container branch drops the keys contained in the matcher
(`if k not in matcher`). -/
def Env.without (e : Env) (m : Matcher) : Env :=
  match m with
  | .pred f => ⟨e.dict.filter (fun kv => f kv.1)⟩
  | .coll ks => ⟨e.dict.filter (fun kv => !(ks.contains kv.1))⟩

/-- Worker for `Env.readout_all`: readout of each listed binding via
`Env.getItem` on the environment. -/
def readoutAllAux (reg : KeyRegistry) (e : Env) :
    List (String × PyVal) → Except Err (List (String × PyVal))
  | [] => .ok []
  | kv :: rest => do
      let v ← Env.getItem reg e kv.1
      let vs ← readoutAllAux reg e rest
      .ok ((kv.1, v) :: vs)

/-- Embedding of `Env.readout_all`: readout of every explicitly present
key, via `Env.getItem`. -/
def Env.readout_all (reg : KeyRegistry) (e : Env) : Except Err (List (String × PyVal)) :=
  readoutAllAux reg e e.dict

/-- First character class of a template identifier (`string.Template`'s
`[_a-z]` with `IGNORECASE`). -/
def idStart (c : Char) : Bool := c.isAlpha || c = '_'

/-- Continuation character class of a template identifier. -/
def idCont (c : Char) : Bool := c.isAlphanum || c = '_'

/-- Scanner state for `string.Template.substitute`: normal text, just
after a `$`, inside a `$name` identifier, just after a `$` and an opening
brace, or inside a braced identifier. -/
inductive ScanMode : Type where
  | norm : ScanMode
  | dollar : ScanMode
  | name : List Char → ScanMode
  | brace0 : ScanMode
  | brace : List Char → ScanMode

/-- Scanner for `string.Template.substitute`, as a state machine over the
character list: `$$` escapes a dollar, `$name` and a braced `$` reference
substitute the `str()` of the looked-up value (a `KeyError` for unknown
keys, via `Env.getItem`), and any other use of `$` is the `ValueError`
for an invalid placeholder. -/
def templateScan (reg : KeyRegistry) (e : Env) : ScanMode → List Char → Except Err (List Char)
  | .norm, [] => .ok []
  | .norm, c :: r =>
      if c = '$' then templateScan reg e .dollar r
      else do
        let t ← templateScan reg e .norm r
        .ok (c :: t)
  | .dollar, [] => .error (.valueError "Invalid placeholder in string")
  | .dollar, c :: r =>
      if c = '$' then do
        let t ← templateScan reg e .norm r
        .ok ('$' :: t)
      else if c = '\x7b' then templateScan reg e .brace0 r
      else if idStart c then templateScan reg e (.name [c]) r
      else .error (.valueError "Invalid placeholder in string")
  | .name acc, [] => do
      let v ← Env.getItem reg e (String.mk acc)
      .ok (pyStr v).data
  | .name acc, c :: r =>
      if idCont c then templateScan reg e (.name (acc ++ [c])) r
      else if c = '$' then do
        let v ← Env.getItem reg e (String.mk acc)
        let t ← templateScan reg e .dollar r
        .ok ((pyStr v).data ++ t)
      else do
        let v ← Env.getItem reg e (String.mk acc)
        let t ← templateScan reg e .norm r
        .ok ((pyStr v).data ++ c :: t)
  | .brace0, [] => .error (.valueError "Invalid placeholder in string")
  | .brace0, c :: r =>
      if idStart c then templateScan reg e (.brace [c]) r
      else .error (.valueError "Invalid placeholder in string")
  | .brace _, [] => .error (.valueError "Invalid placeholder in string")
  | .brace acc, c :: r =>
      if c = '\x7d' then do
        let v ← Env.getItem reg e (String.mk acc)
        let t ← templateScan reg e .norm r
        .ok ((pyStr v).data ++ t)
      else if idCont c then templateScan reg e (.brace (acc ++ [c])) r
      else .error (.valueError "Invalid placeholder in string")

mutual

/-- Embedding of `Env.rewrite`: template substitution on strings,
elementwise recursion through tuples and frozensets, everything else
verbatim. -/
def Env.rewrite (reg : KeyRegistry) (e : Env) : PyVal → Except Err PyVal
  | vstr s => do
      let cs ← templateScan reg e .norm s.data
      .ok (vstr (String.mk cs))
  | vtuple l => do
      let l2 ← Env.rewriteL reg e l
      .ok (vtuple l2)
  | vfrozenset l => do
      let l2 ← Env.rewriteL reg e l
      .ok (vfrozenset (canonSet l2))
  | x => .ok x

/-- Elementwise `Env.rewrite`. -/
def Env.rewriteL (reg : KeyRegistry) (e : Env) : List PyVal → Except Err (List PyVal)
  | [] => .ok []
  | x :: xs => do
      let y ← Env.rewrite reg e x
      let ys ← Env.rewriteL reg e xs
      .ok (y :: ys)

end

/-- The delta forms accepted by `Env.derive` and `prepare_delta`: `None`,
a function from an environment to an environment (given an `Option Env`
so the same constructor serves concrete targets' down-functions, which
may legally receive `None`), a dict of literals, or a sequence. -/
inductive Delta : Type where
  | dnone : Delta
  | func : (Option Env → Except Err Env) → Delta
  | dmap : List (String × PyVal) → Delta
  | dseq : List Delta → Delta

mutual

/-- Embedding of `cobble.env.is_delta`. -/
def is_delta : Delta → Bool
  | .dnone => true
  | .func _ => true
  | .dmap l => l.all (fun kv => is_frozen kv.2)
  | .dseq l => is_deltaL l

/-- Conjunction of `is_delta` over a list. -/
def is_deltaL : List Delta → Bool
  | [] => true
  | d :: ds => is_delta d && is_deltaL ds

end

/-- The per-entry loop of `Env.derive` for a dict delta: unknown keys are
fatal, values are rewritten against the pre-derivation environment, then
coerced, then combined with the existing value from the original dict (a
`None` combine result deletes the key from the accumulator). -/
def Env.deriveMapLoop (reg : KeyRegistry) (e : Env)
    (newDict : List (String × PyVal)) :
    List (String × PyVal) → Except Err (List (String × PyVal))
  | [] => .ok newDict
  | (k, v) :: rest =>
      match reg.get k with
      | none => .error (.exceptionMsg ("delta contained unknown key " ++ k ++
          " (=" ++ pyRepr v ++ ")"))
      | some kd => do
          let v1 ← Env.rewrite reg e v
          let v2 ← kd.from_literal v1
          match alookup e.dict k with
          | some old => do
              let c ← kd.combine old v2
              match c with
              | none => Env.deriveMapLoop reg e (aerase newDict k) rest
              | some nv => Env.deriveMapLoop reg e (insertA newDict k nv) rest
          | none => Env.deriveMapLoop reg e (insertA newDict k v2) rest

mutual

/-- Embedding of `Env.derive`: function deltas are applied to the
environment, dict deltas run the per-entry loop over a copy of the
backing dict, sequences fold left-to-right, `None` is the identity. -/
def Env.derive (reg : KeyRegistry) (e : Env) : Delta → Except Err Env
  | .dnone => .ok e
  | .func f => f (some e)
  | .dmap l => do
      let d ← Env.deriveMapLoop reg e e.dict l
      .ok ⟨d⟩
  | .dseq ds => Env.deriveSeq reg e ds

/-- Left fold of `Env.derive` over a sequence delta. -/
def Env.deriveSeq (reg : KeyRegistry) (e : Env) : List Delta → Except Err Env
  | [] => .ok e
  | d :: ds => do
      let e2 ← Env.derive reg e d
      Env.deriveSeq reg e2 ds

end

mutual

/-- Embedding of `cobble.env._normalize`: strings, booleans and `None`
pass through, a frozenset becomes the sorted tuple of its normalised
elements, and a tuple is returned unchanged (the source does not recurse
into tuples); anything else fails the trailing `assert isinstance(x,
tuple)`. -/
def _normalize : PyVal → Except Err PyVal
  | vstr s => .ok (vstr s)
  | vbool b => .ok (vbool b)
  | vnone => .ok vnone
  | vfrozenset l => do
      let es ← _normalizeL l
      .ok (vtuple (pySorted es))
  | vtuple l => .ok (vtuple l)
  | vlist _ => .error (.assertionError "")
  | vset _ => .error (.assertionError "")

/-- Elementwise `_normalize`. -/
def _normalizeL : List PyVal → Except Err (List PyVal)
  | [] => .ok []
  | x :: xs => do
      let y ← _normalize x
      let ys ← _normalizeL xs
      .ok (y :: ys)

end

/-- C4: `_normalize` converts a top-level set to a sorted tuple but
returns tuples unchanged, so a set nested inside a tuple survives
normalisation un-normalised, contradicting the claim (and the function's
own docstring) that every set inside a frozen datum becomes a sorted
tuple. -/
theorem normalize_keeps_nested_set :
    _normalize (vtuple [vfrozenset [vstr "x"], vstr "a"])
      = .ok (vtuple [vfrozenset [vstr "x"], vstr "a"]) ∧
    _normalize (vfrozenset [vstr "x"]) = .ok (vtuple [vstr "x"]) :=
  ⟨rfl, rfl⟩

/-- C5: on a predicate matcher, `Env.without` keeps exactly the keys on
which the predicate returns true, instead of dropping them as the claim
(and the method's docstring) state; the container branch does drop the
named keys. -/
theorem without_predicate_keeps_matching :
    Env.without ⟨[("a", vstr "1"), ("b", vstr "2")]⟩ (.pred (fun k => k == "a"))
      = ⟨[("a", vstr "1")]⟩ ∧
    Env.without ⟨[("a", vstr "1"), ("b", vstr "2")]⟩ (.coll ["a"])
      = ⟨[("b", vstr "2")]⟩ :=
  ⟨rfl, rfl⟩

theorem deriveMapLoop_error_of_unknown (reg : KeyRegistry) (e : Env)
    (k : String) (hk : reg.get k = none) :
    ∀ (l : List (String × PyVal)) (nd : List (String × PyVal)),
      k ∈ l.map Prod.fst →
      ∃ er, Env.deriveMapLoop reg e nd l = .error er := by
  intro l
  induction l with
  | nil => intro nd h; simp at h
  | cons kv rest ih =>
      intro nd h
      obtain ⟨k', v'⟩ := kv
      cases hg : reg.get k' with
      | none =>
          exact ⟨.exceptionMsg ("delta contained unknown key " ++ k' ++
            " (=" ++ pyRepr v' ++ ")"), by simp [Env.deriveMapLoop, hg]⟩
      | some kd =>
          have hne : k ≠ k' := by
            intro he
            rw [he, hg] at hk
            exact Option.noConfusion hk
          have hmem : k ∈ rest.map Prod.fst := by
            simp at h
            rcases h with h | h
            · exact absurd h hne
            · simpa using h
          cases hr : Env.rewrite reg e v' with
          | error er => exact ⟨er, by simp [Env.deriveMapLoop, hg, hr, Bind.bind, Except.bind]⟩
          | ok v1 =>
              cases hf : kd.from_literal v1 with
              | error er => exact ⟨er, by simp [Env.deriveMapLoop, hg, hr, hf, Bind.bind, Except.bind]⟩
              | ok v2 =>
                  cases ha : alookup e.dict k' with
                  | some old =>
                      cases hc : kd.combine old v2 with
                      | error er =>
                          exact ⟨er, by simp [Env.deriveMapLoop, hg, hr, hf, ha, hc, Bind.bind, Except.bind]⟩
                      | ok c =>
                          cases c with
                          | none =>
                              obtain ⟨er, he⟩ := ih (aerase nd k') hmem
                              exact ⟨er, by simp [Env.deriveMapLoop, hg, hr, hf, ha, hc, he, Bind.bind, Except.bind]⟩
                          | some nv =>
                              obtain ⟨er, he⟩ := ih (insertA nd k' nv) hmem
                              exact ⟨er, by simp [Env.deriveMapLoop, hg, hr, hf, ha, hc, he, Bind.bind, Except.bind]⟩
                  | none =>
                      obtain ⟨er, he⟩ := ih (insertA nd k' v2) hmem
                      exact ⟨er, by simp [Env.deriveMapLoop, hg, hr, hf, ha, he, Bind.bind, Except.bind]⟩

/-- C7 (amended): a dict delta containing a key not defined in the
registry always makes `Env.derive` fail (the receiver is unchanged, as
`derive` builds a fresh dict), and the failure is the unknown-key error
whenever the unknown key is the first entry the loop processes; an
earlier entry may fail its own rewrite, coercion or merge first, in which
case that error is raised instead. -/
theorem derive_unknown_key_fatal (reg : KeyRegistry) (e : Env)
    (l : List (String × PyVal)) (k : String) (v : PyVal)
    (hk : reg.get k = none) :
    (k ∈ l.map Prod.fst → ∃ er, Env.derive reg e (.dmap l) = .error er) ∧
    (∀ rest, l = (k, v) :: rest →
      Env.derive reg e (.dmap l) = .error (.exceptionMsg
        ("delta contained unknown key " ++ k ++ " (=" ++ pyRepr v ++ ")"))) := by
  constructor
  · intro hmem
    obtain ⟨er, he⟩ := deriveMapLoop_error_of_unknown reg e k hk l e.dict hmem
    exact ⟨er, by simp [Env.derive, he, Bind.bind, Except.bind]⟩
  · intro rest hrest
    subst hrest
    simp [Env.derive, Env.deriveMapLoop, hk, Bind.bind, Except.bind]

/-- Registry for the C7 example: a single overrideable bool key named
`flag`; the key `mystery` is not registered. -/
def c7reg : KeyRegistry := ⟨[("flag", overrideable_bool_key "flag" none vnone none)]⟩

/-- C7 (counterexample): a delta whose first entry fails bool coercion
and whose second entry names an unknown key fails with the coercion
`AssertionError`, not with the unknown-key error the claim promises for
every delta containing an unknown key. -/
theorem derive_unknown_key_not_first_error :
    Env.derive c7reg ⟨[]⟩ (.dmap [("flag", vstr "nope"), ("mystery", vbool true)])
      = .error (.assertionError "") ∧
    ∀ m, Env.derive c7reg ⟨[]⟩ (.dmap [("flag", vstr "nope"), ("mystery", vbool true)])
      ≠ .error (.exceptionMsg m) := by
  refine ⟨rfl, ?_⟩
  intro m h
  have h2 : (Except.error (Err.assertionError "") : Except Err Env)
      = .error (.exceptionMsg m) := h
  simp at h2

/-- Witness for C7: a concrete registry, environment and delta at which
the amended theorem applies, with both conclusions evaluated. -/
theorem derive_unknown_key_fatal_witness :
    (∃ er, Env.derive c7reg ⟨[]⟩ (.dmap [("mystery", vbool true)]) = .error er) ∧
    Env.derive c7reg ⟨[]⟩ (.dmap [("mystery", vbool true)])
      = .error (.exceptionMsg "delta contained unknown key mystery (=True)") := by
  have h := derive_unknown_key_fatal c7reg ⟨[]⟩ [("mystery", vbool true)]
    "mystery" (vbool true) rfl
  exact ⟨h.1 (by simp), h.2 [] rfl⟩

/-- Order on strings induced by the character-list encoding; used for the
canonical representation of frozensets of strings (standing in for
Python's unspecified set iteration order). -/
def strLe (a b : String) : Prop := encStr a ≤ encStr b

instance : DecidableRel strLe := fun _ _ => Nat.decLe _ _

instance : IsTotal String strLe := ⟨fun _ _ => Nat.le_total _ _⟩

instance : IsTrans String strLe := ⟨fun _ _ _ => Nat.le_trans⟩

/-- Canonical representation of a Python `frozenset` of strings. -/
def canonSetS (l : List String) : List String := List.insertionSort strLe l.dedup

/-- Embedding of `cobble.project.Package`, reduced to the data the
verified code paths read: the package's project-relative path.  (The
project back-pointer is passed explicitly where needed.) -/
structure Package : Type where
  relpath : String
deriving DecidableEq

/-- Modelled from the spec: `Package.make_absolute` is missing from the
sources under verification — only its caller `Target.__init__` remains —
and the spec says dependency identifiers are coerced to absolute form
relative to the declaring package, a relative identifier `:x` declared
in package `pkg` becoming `//<pkg>:x`; other identifiers pass through. -/
def Package.make_absolute (p : Package) (ident : String) : String :=
  match ident.data with
  | ':' :: _ => "//" ++ p.relpath ++ ident
  | _ => ident

/-- The reserved key accumulating implicit Ninja dependency edges
(`cobble.target.IMPLICIT`). -/
def IMPLICIT : EnvKey :=
  frozenset_key "__implicit__" none []
    (some ("Accumulates implicit dependency edges on build products for "
      ++ "use by Ninja."))

/-- The reserved key accumulating order-only Ninja dependency edges
(`cobble.target.ORDER_ONLY`). -/
def ORDER_ONLY : EnvKey :=
  frozenset_key "__order_only__" none []
    (some ("Accumulates order-only dependency edges on build products for "
      ++ "use by Ninja. Order-only dependencies only need to *exist*, "
      ++ "rather than needing to be up-to-date."))

/-- Embedding of `cobble.target._special_product_keys`: the keys conveyed
to Ninja as edges rather than as variables. -/
def _special_product_keys : List String := ["__implicit__", "__order_only__"]

/-- Split a character list at every occurrence of a separator character
(the component split behind `os.path` handling; the result is never
empty). -/
def splitCL (sep : Char) : List Char → List (List Char)
  | [] => [[]]
  | c :: r =>
      match splitCL sep r with
      | [] => [[c]]
      | h :: t => if c = sep then [] :: h :: t else (c :: h) :: t

/-- Join character-list components with a separator character. -/
def joinCL (sep : Char) : List (List Char) → List Char
  | [] => []
  | [x] => x
  | x :: xs => x ++ sep :: joinCL sep xs

/-- Embedding of `os.path.dirname` for the slash-separated relative paths
the build system produces (no handling of a root directory, which never
appears in build-relative paths). -/
def dirnameF (p : String) : String :=
  let parts := splitCL '/' p.data
  if parts.length ≤ 1 then "" else String.mk (joinCL '/' parts.dropLast)

/-- Length of the common prefix of two component lists. -/
def commonPrefixLen : List (List Char) → List (List Char) → Nat
  | a :: as, b :: bs => if a = b then commonPrefixLen as bs + 1 else 0
  | _, _ => 0

/-- Embedding of `os.path.relpath(path, start)` for dot-free relative
POSIX paths: drop the common prefix of the component lists, go up once
per remaining component of `start`, then down the remainder of `path`. -/
def relpathF (path start : String) : String :=
  let ps := splitCL '/' path.data
  let ss := if start = "" then [] else splitCL '/' start.data
  let common := commonPrefixLen ps ss
  match List.replicate (ss.length - common) ['.', '.'] ++ ps.drop common with
  | [] => "."
  | l => String.mk (joinCL '/' l)

/-- Embedding of `cobble.target.Product`: one concrete build step. -/
structure Product : Type where
  env : Env
  inputs : PyVal
  rule : String
  outputs : PyVal
  symlink_as : Option String
  dyndep : Option String
  implicit_outputs : PyVal
  implicit : PyVal
  order_only : PyVal
  vars : List (String × PyVal)
deriving DecidableEq

/-- Set union on modelled frozensets (`frozenset.__or__`). -/
def pyUnion (a : PyVal) (extra : List PyVal) : Except Err PyVal :=
  match a with
  | vfrozenset l => .ok (vfrozenset (canonSet (l ++ extra)))
  | x => .error (.typeError ("unsupported operand type for set union: " ++ pyRepr x))

/-- The `if implicit: self.implicit |= frozenset(implicit)` pattern of
`Product.__init__`: extend a set-valued field unless the argument is
falsy. -/
def extendSet (base : PyVal) (extra : List PyVal) : Except Err PyVal :=
  if extra.isEmpty then .ok base else pyUnion base extra

/-- Embedding of `Product.__init__`: freeze the collection arguments,
extend the implicit and order-only sets read out of the environment's
reserved keys with the corresponding optional arguments (skipped when
falsy, as in the source), and compute the variables dict (field `vars`) as the readout
of the environment without the reserved keys. -/
def Product.init (reg : KeyRegistry) (env : Env) (outputs : PyVal)
    (rule : String) (inputs : PyVal) (implicit : List PyVal)
    (order_only : List PyVal) (implicit_outputs : PyVal)
    (symlink_as : Option String) (dyndep : Option String) :
    Except Err Product := do
  let implicit0 ← Env.getItem reg env "__implicit__"
  let implicit1 ← extendSet implicit0 implicit
  let order0 ← Env.getItem reg env "__order_only__"
  let order1 ← extendSet order0 order_only
  let vars ← Env.readout_all reg (Env.without env (.coll _special_product_keys))
  .ok {
    env := env
    inputs := freeze inputs
    rule := rule
    outputs := freeze outputs
    symlink_as := symlink_as
    dyndep := dyndep
    implicit_outputs := freeze implicit_outputs
    implicit := implicit1
    order_only := order1
    vars := vars
  }

/-- One Ninja build rule in dict form, as produced by
`Product.ninja_dicts`; absent dict keys are `none`. -/
structure NinjaDict : Type where
  outputs : PyVal
  rule : String
  inputs : Option PyVal
  implicit : Option PyVal
  order_only : Option PyVal
  vars : Option (List (String × PyVal))
  dyndep : Option String
deriving DecidableEq

/-- Sort an association list by key order (`dict(sorted(d.items()))` for
string-keyed dicts whose keys are unique). -/
def sortPairs (l : List (String × PyVal)) : List (String × PyVal) :=
  List.insertionSort (fun a b => strLe a.1 b.1) l

instance : DecidableRel (fun (a b : String × PyVal) => strLe a.1 b.1) :=
  fun _ _ => Nat.decLe _ _

/-- The sorted-if-truthy pattern of `ninja_dicts` for the implicit and
order-only fields: a sorted list for a truthy set-valued field, absent
otherwise. -/
def sortedSetField (v : PyVal) : Except Err (Option PyVal) :=
  if pyTruthy v then do
    let es ← pyIter v
    pure (some (vlist (pySorted es)))
  else pure none

/-- Embedding of `Product.ninja_dicts`: the primary rule dict, plus — for
a product with a (truthy) symlink path, which must have exactly one
output — a secondary `cobble_symlink_product` dict whose order-only
dependencies are the primary outputs and whose `target` variable is the
output path relative to the symlink's directory. -/
def Product.ninja_dicts (p : Product) : Except Err (List NinjaDict) := do
  let impl ← sortedSetField p.implicit
  let oo ← sortedSetField p.order_only
  let d : NinjaDict := {
    outputs := p.outputs
    rule := p.rule
    inputs := if pyTruthy p.inputs then some p.inputs else none
    implicit := impl
    order_only := oo
    vars := if p.vars.isEmpty then none else some (sortPairs p.vars)
    dyndep := match p.dyndep with
      | some s => if s.isEmpty then none else some s
      | none => none
  }
  match p.symlink_as with
  | some s =>
      if s.isEmpty then .ok [d]
      else
        match p.outputs with
        | vtuple [vstr o] =>
            .ok [d, {
              outputs := vlist [vstr s]
              rule := "cobble_symlink_product"
              inputs := none
              implicit := none
              order_only := some p.outputs
              vars := some [("target", vstr (relpathF o (dirnameF s)))]
              dyndep := none
            }]
        | vtuple _ =>
            .error (.assertionError "target wanted symlink but has too many outputs")
        | x => .error (.typeError ("object has no len: " ++ pyRepr x))
  | none => .ok [d]

/-- Embedding of `cobble.target.UsingContext`, the parameter object
handed to `using_and_products` implementations: the declaring package's
relpath, the final local environment, the merged product map keyed by
`(target ident, env)`, and the convenience map from target ident to
`(rank, env)`.  (The source's `rewrite_sources` helper is not needed by
any verified claim.) -/
structure UsingContext : Type where
  package : String
  env : Env
  product_map : List ((String × Option Env) × List Product)
  rank_map : List (String × (Nat × Option Env))

/-- Embedding of `cobble.target.Target`: the declaring package, the
name, the concreteness flag, the `down` and `local` deltas, the
`using_and_products` implementation, the processed dependency identifier
set, and the transparency flag.  The evaluation memo table is external
state in the model (see `EvalState`). -/
structure Target : Type where
  package : Package
  name : String
  concrete : Bool
  _down : Delta
  _local : Delta
  _using_and_products : UsingContext → Except Err (Delta × List Product)
  _deps : List String
  transparent : Bool

/-- Embedding of `Target.__init__`: a concrete target's `down` delta must
be a function, a non-concrete target's must satisfy `is_delta`, the local
delta must satisfy `is_delta`, dependency identifiers are made absolute
relative to the declaring package and collected into a frozenset, and the
transparency flag is initialised to `True` for every target. -/
def Target.init (package : Package) (name : String)
    (using_and_products : UsingContext → Except Err (Delta × List Product))
    (down : Delta) (localDelta : Delta) (deps : List String)
    (concrete : Bool) : Except Err Target :=
  if (if concrete then
      match down with
      | .func _ => true
      | _ => false
    else is_delta down) then
    if is_delta localDelta then
      .ok {
        package := package
        name := name
        concrete := concrete
        _down := down
        _local := localDelta
        _using_and_products := using_and_products
        _deps := canonSetS (deps.map package.make_absolute)
        transparent := true
      }
    else .error (.assertionError "")
  else .error (.assertionError "")

/-- Embedding of the `Target.ident` property, with the special case for
targets declared at the project root. -/
def Target.ident (t : Target) : String :=
  if t.package.relpath = "." then "//:" ++ t.name
  else "//" ++ t.package.relpath ++ ":" ++ t.name

/-- Embedding of the `Target.deps` property. -/
def Target.deps (t : Target) : List String := t._deps

/-- C6: constructing a target coerces every dependency identifier to
absolute form relative to the declaring package — a relative identifier
`:x` in package `pkg` becomes `//<pkg>:x` — and the `deps` property
returns the coerced identifiers as a frozenset of strings (modelled as
the canonical duplicate-free list). -/
theorem target_deps_are_absolute (package : Package) (name : String)
    (uap : UsingContext → Except Err (Delta × List Product))
    (down localDelta : Delta) (deps : List String) (concrete : Bool)
    (t : Target)
    (h : Target.init package name uap down localDelta deps concrete = .ok t) :
    t.deps = canonSetS (deps.map package.make_absolute) ∧
    ∀ x : String, package.make_absolute (":" ++ x) =
      "//" ++ package.relpath ++ ":" ++ x := by
  constructor
  · unfold Target.init at h
    repeat' split at h
    all_goals try exact Except.noConfusion h
    all_goals (injection h with h2; subst h2; rfl)
  · intro x
    show Package.make_absolute package (":" ++ x) = _
    unfold Package.make_absolute
    have hdata : (":" ++ x).data = ':' :: x.data := by
      have : (":" ++ x).data = (":").data ++ x.data := String.data_append _ _
      simpa using this
    rw [hdata]
    simp [String.append_assoc]

/-- Witness for C6: a concrete package and dependency list at which the
theorem applies; the resulting deps set is evaluated. -/
theorem target_deps_are_absolute_witness :
    ∃ t, Target.init ⟨"lib"⟩ "tool" (fun _ => .ok (.dnone, [])) .dnone .dnone
      [":helper", "//other:thing"] false = .ok t ∧
    t.deps = ["//lib:helper", "//other:thing"] ∧
    Package.make_absolute ⟨"lib"⟩ (":helper") = "//lib:helper" := by
  refine ⟨_, rfl, ?_, ?_⟩
  · have h := target_deps_are_absolute ⟨"lib"⟩ "tool" (fun _ => .ok (.dnone, []))
      .dnone .dnone [":helper", "//other:thing"] false _ rfl
    rw [h.1]
    rfl
  · have h := target_deps_are_absolute ⟨"lib"⟩ "tool" (fun _ => .ok (.dnone, []))
      .dnone .dnone [":helper", "//other:thing"] false _ rfl
    have h2 := h.2 "helper"
    simpa using h2

theorem alookup_filter {β : Type} (p : String → Bool)
    (l : List (String × β)) (k : String) :
    alookup (l.filter (fun kv => p kv.1)) k
      = if p k then alookup l k else none := by
  induction l with
  | nil => simp [alookup]
  | cons kv rest ih =>
      obtain ⟨a, b⟩ := kv
      by_cases hp : p a = true
      · simp only [List.filter_cons, hp]
        by_cases hk : k = a
        · subst hk
          simp [alookup, hp]
        · simp [alookup, hk, ih]
      · simp only [List.filter_cons]
        rw [if_neg (by simpa using hp)]
        by_cases hk : k = a
        · subst hk
          simp [alookup, ih, hp]
        · simp [alookup, hk, ih]

theorem alookup_eq_of_mem_nodup {κ β : Type} [DecidableEq κ] {l : List (κ × β)}
    {k : κ} {v : β} (hnd : (l.map Prod.fst).Nodup)
    (hm : (k, v) ∈ l) : alookup l k = some v := by
  induction l with
  | nil => simp at hm
  | cons kv rest ih =>
      obtain ⟨a, b⟩ := kv
      simp only [List.map_cons, List.nodup_cons] at hnd
      rcases List.mem_cons.mp hm with h | h
      · cases h
        simp [alookup]
      · have hka : k ≠ a := by
          intro he
          subst he
          exact hnd.1 (List.mem_map.mpr ⟨(k, v), h, rfl⟩)
        simp [alookup, hka]
        exact ih hnd.2 h

theorem mem_of_alookup {κ β : Type} [DecidableEq κ] {l : List (κ × β)}
    {k : κ} {v : β} (h : alookup l k = some v) : (k, v) ∈ l := by
  induction l with
  | nil => simp [alookup] at h
  | cons kv rest ih =>
      obtain ⟨a, b⟩ := kv
      by_cases hk : k = a
      · subst hk
        simp [alookup] at h
        simp [h]
      · simp [alookup, hk] at h
        exact List.mem_cons_of_mem _ (ih h)

theorem readoutAllAux_mem (reg : KeyRegistry) (e : Env) :
    ∀ (l vs : List (String × PyVal)), readoutAllAux reg e l = .ok vs →
      (∀ k v, (k, v) ∈ vs → ∃ raw, (k, raw) ∈ l ∧ Env.getItem reg e k = .ok v) ∧
      (∀ k raw, (k, raw) ∈ l → ∃ v, (k, v) ∈ vs ∧ Env.getItem reg e k = .ok v) := by
  intro l
  induction l with
  | nil =>
      intro vs h
      simp [readoutAllAux] at h
      subst h
      exact ⟨by simp, by simp⟩
  | cons kv rest ih =>
      intro vs h
      obtain ⟨k0, r0⟩ := kv
      simp only [readoutAllAux] at h
      cases hg : Env.getItem reg e k0 with
      | error er => rw [hg] at h; simp [Bind.bind, Except.bind] at h
      | ok v0 =>
          rw [hg] at h
          cases hr : readoutAllAux reg e rest with
          | error er => rw [hr] at h; simp [Bind.bind, Except.bind] at h
          | ok vs' =>
              rw [hr] at h
              simp [Bind.bind, Except.bind] at h
              subst h
              obtain ⟨ih1, ih2⟩ := ih vs' hr
              constructor
              · intro k v hm
                rcases List.mem_cons.mp hm with h1 | h1
                · obtain ⟨he1, he2⟩ := Prod.mk.injEq .. ▸ h1
                  injection h1 with hk hv
                  subst hk
                  subst hv
                  exact ⟨r0, by simp, hg⟩
                · obtain ⟨raw, hraw, hget⟩ := ih1 k v h1
                  exact ⟨raw, List.mem_cons_of_mem _ hraw, hget⟩
              · intro k raw hm
                rcases List.mem_cons.mp hm with h1 | h1
                · injection h1 with hk hv
                  subst hk
                  exact ⟨v0, by simp, hg⟩
                · obtain ⟨v, hv, hget⟩ := ih2 k raw h1
                  exact ⟨v, List.mem_cons_of_mem _ hv, hget⟩

/-- C10: a product constructed over an environment takes its implicit
set from the readout of the `__implicit__` key extended by the `implicit`
argument, its order-only set from the readout of the `__order_only__`
key extended by the `order_only` argument, and its variables map is
exactly the readout of every present key of the environment other than
the two reserved keys. -/
theorem product_init_fields (reg : KeyRegistry) (env : Env) (outputs : PyVal)
    (rule : String) (inputs : PyVal) (implicit order_only : List PyVal)
    (implicit_outputs : PyVal) (symlink_as dyndep : Option String)
    (p : Product) (li lo : List PyVal)
    (hnd : (env.dict.map Prod.fst).Nodup)
    (hi : Env.getItem reg env "__implicit__" = .ok (vfrozenset li))
    (hci : canonSet li = li)
    (ho : Env.getItem reg env "__order_only__" = .ok (vfrozenset lo))
    (hco : canonSet lo = lo)
    (h : Product.init reg env outputs rule inputs implicit order_only
      implicit_outputs symlink_as dyndep = .ok p) :
    p.implicit = vfrozenset (canonSet (li ++ implicit)) ∧
    p.order_only = vfrozenset (canonSet (lo ++ order_only)) ∧
    ∀ k v, (k, v) ∈ p.vars ↔
      (k ∉ _special_product_keys ∧
        ∃ raw kd, (k, raw) ∈ env.dict ∧ reg.get k = some kd ∧ v = kd.readout raw) := by
  unfold Product.init at h
  rw [hi, ho] at h
  simp only [Bind.bind, Except.bind] at h
  have himp1 : extendSet (vfrozenset li) implicit
      = .ok (vfrozenset (canonSet (li ++ implicit))) := by
    unfold extendSet
    by_cases he : implicit.isEmpty
    · rw [if_pos he]
      rw [List.isEmpty_iff.mp he]
      simp [hci]
    · rw [if_neg he]
      simp [pyUnion]
  have hord1 : extendSet (vfrozenset lo) order_only
      = .ok (vfrozenset (canonSet (lo ++ order_only))) := by
    unfold extendSet
    by_cases he : order_only.isEmpty
    · rw [if_pos he]
      rw [List.isEmpty_iff.mp he]
      simp [hco]
    · rw [if_neg he]
      simp [pyUnion]
  rw [himp1, hord1] at h
  cases hv : Env.readout_all reg (Env.without env (.coll _special_product_keys)) with
  | error er =>
      rw [hv] at h
      simp [Bind.bind, Except.bind] at h
  | ok vs =>
      rw [hv] at h
      simp [Bind.bind, Except.bind] at h
      obtain ⟨hmem1, hmem2⟩ :=
        readoutAllAux_mem reg (Env.without env (.coll _special_product_keys))
          (Env.without env (.coll _special_product_keys)).dict vs hv
      subst h
      refine ⟨rfl, rfl, ?_⟩
      intro k v
      constructor
      · intro hm
        obtain ⟨raw, hraw, hget⟩ := hmem1 k v hm
        have hraw2 : (k, raw) ∈ env.dict ∧ ¬ _special_product_keys.contains k := by
          have := List.mem_filter.mp hraw
          simpa using this
        have hkspec : k ∉ _special_product_keys := by
          intro hc
          exact hraw2.2 (List.elem_eq_true_of_mem hc)
        refine ⟨hkspec, ?_⟩
        unfold Env.getItem at hget
        cases hg : reg.get k with
        | none => rw [hg] at hget; exact Except.noConfusion hget
        | some kd =>
            rw [hg] at hget
            refine ⟨raw, kd, hraw2.1, rfl, ?_⟩
            have hl : alookup (Env.without env (.coll _special_product_keys)).dict k
                = some raw := by
              show alookup (env.dict.filter
                (fun kv => !(_special_product_keys.contains kv.1))) k = some raw
              rw [alookup_filter (fun k => !(_special_product_keys.contains k))]
              rw [if_pos (by simpa using hraw2.2)]
              exact alookup_eq_of_mem_nodup hnd hraw2.1
            rw [hl] at hget
            injection hget with hget
            exact hget.symm
      · rintro ⟨hkspec, raw, kd, hraw, hg, hv2⟩
        have hcont : ¬ _special_product_keys.contains k = true := by
          intro hc
          exact hkspec (List.mem_of_elem_eq_true hc)
        have hfil : (k, raw) ∈ (Env.without env (.coll _special_product_keys)).dict := by
          show (k, raw) ∈ env.dict.filter (fun kv => !(_special_product_keys.contains kv.1))
          exact List.mem_filter.mpr ⟨hraw, by simpa using hcont⟩
        obtain ⟨v', hv', hget⟩ := hmem2 k raw hfil
        have : v' = v := by
          unfold Env.getItem at hget
          rw [hg] at hget
          have hl : alookup (Env.without env (.coll _special_product_keys)).dict k
              = some raw := by
            show alookup (env.dict.filter
              (fun kv => !(_special_product_keys.contains kv.1))) k = some raw
            rw [alookup_filter (fun k => !(_special_product_keys.contains k))]
            rw [if_pos (by simpa using hcont)]
            exact alookup_eq_of_mem_nodup hnd hraw
          rw [hl] at hget
          injection hget with hget
          rw [← hget, hv2]
          simp
        rw [← this]
        exact hv'

theorem sortedSetField_frozenset (l : List PyVal) :
    sortedSetField (vfrozenset l)
      = .ok (if l.isEmpty then none else some (vlist (pySorted l))) := by
  unfold sortedSetField
  by_cases he : l.isEmpty
  · rw [if_pos he]
    have : pyTruthy (vfrozenset l) = false := by simp [pyTruthy, he]
    rw [this]
    rfl
  · rw [if_neg he]
    have : pyTruthy (vfrozenset l) = true := by simp [pyTruthy]; simpa using he
    rw [this]
    simp [pyIter, Bind.bind, Except.bind]
    rfl

/-- C9: a product with a (non-empty) symlink path and a single output
expands into exactly two Ninja dicts — the primary rule dict and a
secondary `cobble_symlink_product` dict whose outputs are the symlink
path, whose order-only dependencies are the primary outputs and whose
`target` variable is the output path made relative to the symlink's
directory — while a product with no symlink yields exactly one dict. -/
theorem product_symlink_two_dicts (p : Product) (s o : String)
    (limp lord : List PyVal)
    (hs : p.symlink_as = some s) (hse : s ≠ "")
    (houts : p.outputs = vtuple [vstr o])
    (himp : p.implicit = vfrozenset limp)
    (hord : p.order_only = vfrozenset lord) :
    (∃ d, Product.ninja_dicts p = .ok [d, {
        outputs := vlist [vstr s]
        rule := "cobble_symlink_product"
        inputs := none
        implicit := none
        order_only := some (vtuple [vstr o])
        vars := some [("target", vstr (relpathF o (dirnameF s)))]
        dyndep := none }] ∧
      d.outputs = p.outputs ∧ d.rule = p.rule) ∧
    (∀ (q : Product) (limq lorq : List PyVal), q.symlink_as = none →
      q.implicit = vfrozenset limq → q.order_only = vfrozenset lorq →
      ∃ d, Product.ninja_dicts q = .ok [d]) := by
  constructor
  · unfold Product.ninja_dicts
    rw [himp, hord, sortedSetField_frozenset, sortedSetField_frozenset, hs, houts]
    simp only [Bind.bind, Except.bind]
    rw [if_neg (fun hc => hse ((String.isEmpty_iff s).mp hc))]
    exact ⟨_, rfl, rfl, rfl⟩
  · intro q limq lorq hqs hqi hqo
    unfold Product.ninja_dicts
    rw [hqi, hqo, sortedSetField_frozenset, sortedSetField_frozenset, hqs]
    simp only [Bind.bind, Except.bind]
    exact ⟨_, rfl⟩

/-- A concrete symlink-bearing product for the C9 witness, shaped like a
link product under a digest-qualified output directory. -/
def c9prod : Product := {
  env := ⟨[]⟩
  inputs := vtuple [vstr "a.o"]
  rule := "link_c_program"
  outputs := vtuple [vstr "BUILD/env/1234/pkg/prog"]
  symlink_as := some "BUILD/latest/pkg/prog"
  dyndep := none
  implicit_outputs := vnone
  implicit := vfrozenset []
  order_only := vfrozenset []
  vars := []
}

/-- A concrete symlink-free product for the C9 witness. -/
def c9prodPlain : Product := {
  env := ⟨[]⟩
  inputs := vtuple [vstr "a.c"]
  rule := "compile_c_obj"
  outputs := vtuple [vstr "BUILD/env/1234/pkg/a.o"]
  symlink_as := none
  dyndep := none
  implicit_outputs := vnone
  implicit := vfrozenset []
  order_only := vfrozenset []
  vars := []
}

/-- Witness for C9: the two-dict expansion at a concrete product, with
the `target` variable evaluated to the expected relative path, and the
one-dict expansion at a concrete symlink-free product. -/
theorem product_symlink_two_dicts_witness :
    (∃ d, Product.ninja_dicts c9prod = .ok [d, {
        outputs := vlist [vstr "BUILD/latest/pkg/prog"]
        rule := "cobble_symlink_product"
        inputs := none
        implicit := none
        order_only := some (vtuple [vstr "BUILD/env/1234/pkg/prog"])
        vars := some [("target", vstr "../../env/1234/pkg/prog")]
        dyndep := none }]) ∧
    (∃ d, Product.ninja_dicts c9prodPlain = .ok [d]) := by
  have h := product_symlink_two_dicts c9prod "BUILD/latest/pkg/prog"
    "BUILD/env/1234/pkg/prog" [] [] rfl (by simp) rfl rfl rfl
  constructor
  · obtain ⟨d, hd, _, _⟩ := h.1
    refine ⟨d, ?_⟩
    rw [hd]
    rfl
  · exact h.2 c9prodPlain [] [] rfl rfl rfl

/-- Registry for the C10 witness: the two reserved keys plus one plain
string key. -/
def c10reg : KeyRegistry :=
  ⟨[("__implicit__", IMPLICIT), ("__order_only__", ORDER_ONLY),
    ("cc", overrideable_string_key "cc" vnone none none)]⟩

/-- Environment for the C10 witness. -/
def c10env : Env :=
  ⟨[("cc", vstr "gcc"), ("__implicit__", vfrozenset [vstr "dep1"])]⟩

/-- Witness for C10: a concrete product construction at which the field
theorem applies; its implicit set, order-only set and variables map are
evaluated. -/
theorem product_init_fields_witness :
    ∃ p, Product.init c10reg c10env (vtuple [vstr "out.o"]) "compile"
        (vtuple [vstr "a.c"]) [vstr "extra"] [] vnone none none = .ok p ∧
      p.implicit = vfrozenset (canonSet ([vstr "dep1"] ++ [vstr "extra"])) ∧
      p.order_only = vfrozenset (canonSet ([] ++ ([] : List PyVal))) ∧
      ("cc", vstr "gcc") ∈ p.vars ∧
      ¬ ∃ v, ("__implicit__", v) ∈ p.vars := by
  have h := product_init_fields c10reg c10env (vtuple [vstr "out.o"]) "compile"
    (vtuple [vstr "a.c"]) [vstr "extra"] [] vnone none none _ [vstr "dep1"] []
    (by decide) rfl rfl rfl rfl rfl
  refine ⟨_, rfl, h.1, h.2.1, ?_, ?_⟩
  · refine (h.2.2 "cc" (vstr "gcc")).mpr ⟨by simp [_special_product_keys], ?_⟩
    refine ⟨vstr "gcc", overrideable_string_key "cc" vnone none none, ?_, rfl, rfl⟩
    simp [c10env]
  · rintro ⟨v, hv⟩
    have h2 := (h.2.2 "__implicit__" v).mp hv
    exact h2.1 (by simp [_special_product_keys])

/-- A rank-map / product-map key: the target's identifier together with
the incoming environment (which is absent when a concrete target is
evaluated with `None`).  Python keys the maps by the target object; under
the well-formedness used in the theorems each stored target is the unique
one reachable under its identifier, so the identifier is a faithful key. -/
abbrev EKey : Type := String × Option Env

/-- A rank map: `(target, env) → (rank, using_delta)`. -/
abbrev RankMap : Type := List (EKey × (Nat × Delta))

/-- A product map: `(target, env) → list of products`. -/
abbrev ProdMap : Type := List (EKey × List Product)

/-- One slot of a target's evaluation memo table: the in-progress marker
(`RecursionDetector`), a completed result, or a stored exception. -/
inductive MemoE : Type where
  | inProgress : MemoE
  | done : RankMap × ProdMap → MemoE
  | failed : Err → MemoE

/-- The memo tables of all targets, keyed by `(target ident, env)`; in
Python each target owns its `_evaluate_memos` dict keyed by env, which
this flattens into one table. -/
abbrev EvalState : Type := List (EKey × MemoE)

/-- Embedding of `cobble.project.Project`, reduced to the package/target
table that identifier resolution reads. -/
structure Project : Type where
  packages : List (String × List (String × Target))

/-- The last slash-separated component (`os.path.basename`). -/
def basenameCL (p : List Char) : List Char :=
  match (splitCL '/' p).getLast? with
  | some x => x
  | none => []

/-- Target lookup in the package table with the assertion errors of
`Project.find_target` (`ident` is carried for the error message). -/
def lookupPT (proj : Project) (ident : String) (pkgPath targetName : String) :
    Except Err Target :=
  match alookup proj.packages pkgPath with
  | none => .error (.assertionError ("Reference to unknown package: " ++ pyRepr (vstr ident)))
  | some tgts =>
      match alookup tgts targetName with
      | none => .error (.assertionError ("Target " ++ targetName ++
          " not found in package " ++ pkgPath))
      | some t => .ok t

/-- Embedding of `Project.find_target`: identifiers must start with `//`;
the remainder splits on colons into a package path with an optional
target name (defaulting to the package basename); more than one colon is
an error. -/
def Project.find_target (proj : Project) (ident : String) : Except Err Target :=
  match ident.data with
  | '/' :: '/' :: rest =>
      match splitCL ':' rest with
      | [p] => lookupPT proj ident (String.mk p) (String.mk (basenameCL p))
      | [p, n] => lookupPT proj ident (String.mk p) (String.mk n)
      | _ => .error (.exceptionMsg ("Too many colons in identifier: " ++ pyRepr (vstr ident)))
  | _ => .error (.assertionError ("bad identifier: " ++ pyRepr (vstr ident)))

/-- Embedding of `Package.find_target`: a leading colon expands to a
reference within this package. -/
def Package.find_target (proj : Project) (p : Package) (ident : String) :
    Except Err Target :=
  match ident.data with
  | ':' :: _ => proj.find_target ("//" ++ p.relpath ++ ident)
  | _ => proj.find_target ident

/-- Embedding of `Target.derive_down`: a concrete target's down function
replaces the environment (and may receive `None`); a non-concrete target
derives from the incoming environment, which must be present. -/
def Target.derive_down (reg : KeyRegistry) (t : Target) (envUp : Option Env) :
    Except Err Env :=
  if t.concrete then
    match t._down with
    | .func f => f envUp
    | _ => .error (.typeError "down delta of a concrete target is not callable")
  else
    match envUp with
    | some e => Env.derive reg e t._down
    | none => .error (.attributeError "cannot derive from None environment")

/-- Embedding of `Target.derive_local`. -/
def Target.derive_local (reg : KeyRegistry) (t : Target) (e : Env) : Except Err Env :=
  Env.derive reg e t._local

/-- Rewrite of the dependency identifier set against the pre-using local
environment (`env_local_0.rewrite(self._deps)`): each element is template
substituted, and the results form a new frozenset. -/
def rewriteDeps (reg : KeyRegistry) (e : Env) : List String → Except Err (List String)
  | [] => .ok []
  | d :: rest => do
      let cs ← templateScan reg e .norm d.data
      let others ← rewriteDeps reg e rest
      .ok (String.mk cs :: others)

/-- One step of `_topo_merge`: propose the entry's rank plus one, keep
the maximum against an existing entry for the same key, and overwrite the
using-delta. -/
def mergeStep (acc : RankMap) (entry : EKey × (Nat × Delta)) : RankMap :=
  let r1 := entry.2.1 + 1
  let r2 := match alookup acc entry.1 with
    | some (r0, _) => max r1 r0
    | none => r1
  insertA acc entry.1 (r2, entry.2.2)

/-- Embedding of `cobble.target._topo_merge`: fold the entries of all
dependency rank maps into a higher-rank map. -/
def _topo_merge (maps : List RankMap) : RankMap :=
  maps.flatten.foldl mergeStep []

/-- Deterministic stand-in for the env digest as a sort tie-break: an
injective encoding of the environment contents (`None` sorts as zero). -/
def envCode : Option Env → Nat
  | none => 0
  | some e => enc (vtuple (e.dict.map (fun kv => vtuple [vstr kv.1, kv.2]))) + 1

/-- The ident/env part of the `_topo_sort` key, combined injectively into
one natural number.  The model's tie order among equal-rank entries is a
fixed deterministic order, standing in for Python's comparison of ident
strings and digest hex strings (no claim depends on which tie order). -/
def entKey2 (x : EKey × (Nat × Delta)) : Nat :=
  Nat.pair (encStr x.1.1) (envCode x.1.2)

/-- The `_topo_sort` ordering: primarily by descending rank (the `-r` in
the source's key tuple), then by the deterministic ident/env key. -/
def entLe (a b : EKey × (Nat × Delta)) : Prop :=
  b.2.1 < a.2.1 ∨ (b.2.1 = a.2.1 ∧ entKey2 a ≤ entKey2 b)

instance : DecidableRel entLe := fun a b =>
  inferInstanceAs (Decidable (_ ∨ _))

instance : IsTotal (EKey × (Nat × Delta)) entLe := by
  constructor
  intro a b
  unfold entLe
  rcases Nat.lt_trichotomy a.2.1 b.2.1 with h | h | h
  · right
    left
    exact h
  · rcases Nat.le_total (entKey2 a) (entKey2 b) with h2 | h2
    · left
      right
      exact ⟨h.symm, h2⟩
    · right
      right
      exact ⟨h, h2⟩
  · left
    left
    exact h

instance : IsTrans (EKey × (Nat × Delta)) entLe := by
  constructor
  intro a b c hab hbc
  unfold entLe at hab hbc ⊢
  rcases hab with h1 | ⟨h1, h1k⟩ <;> rcases hbc with h2 | ⟨h2, h2k⟩
  · left
    omega
  · left
    omega
  · left
    omega
  · right
    exact ⟨by omega, Nat.le_trans h1k h2k⟩

/-- Embedding of `cobble.target._topo_sort`: order the rank-map entries
by the stable sort key. -/
def _topo_sort (m : RankMap) : List (EKey × (Nat × Delta)) :=
  List.insertionSort entLe m

/-- Merge of the dependency product maps (`dict(chain(*(m.items() ...)))`:
later duplicate keys overwrite earlier ones). -/
def unionProds (maps : List ProdMap) : ProdMap :=
  maps.flatten.foldl (fun acc kv => insertA acc kv.1 kv.2) []

/-- The convenience map `target → (rank, env)` given to the using
context, built from the sorted entries (a dict comprehension: later
entries for the same target overwrite earlier ones). -/
def ctxRankMap (sorted : List (EKey × (Nat × Delta))) : List (String × (Nat × Option Env)) :=
  sorted.foldl (fun acc e => insertA acc e.1.1 (e.2.1, e.1.2)) []

/-- The fold of the ordered using-deltas into the local environment
(`reduce(lambda e, dlt: e.derive(dlt), dep_usings, env_local_0)`). -/
def deriveUsings (reg : KeyRegistry) : Env → List Delta → Except Err Env
  | e, [] => .ok e
  | e, d :: ds => do
      let e2 ← Env.derive reg e d
      deriveUsings reg e2 ds

/-- The dependency-evaluation loop of `Target._evaluate`, parameterised
by the evaluation function `ev` (the memoised `Target.evaluate` at the
next lower fuel): resolve each identifier through the declaring package
and evaluate it against the down-environment, threading the memo state. -/
def evalDepsWith
    (ev : EvalState → Target → Option Env → (Except Err (RankMap × ProdMap)) × EvalState)
    (proj : Project) (pkg : Package) (envDown : Env) :
    EvalState → List String → (Except Err (List (RankMap × ProdMap))) × EvalState
  | st, [] => (.ok [], st)
  | st, id :: rest =>
      match Package.find_target proj pkg id with
      | .error e => (.error e, st)
      | .ok td =>
          match ev st td (some envDown) with
          | (.error e, st2) => (.error e, st2)
          | (.ok r, st2) =>
              match evalDepsWith ev proj pkg envDown st2 rest with
              | (.error e, st3) => (.error e, st3)
              | (.ok rs, st3) => (.ok (r :: rs), st3)

/-- Embedding of `Target._evaluate` (the non-memoised body),
parameterised by the evaluation function used for dependencies: derive
the down- and first local environment, rewrite and evaluate the deps,
merge and sort the rank maps, fold the using-deltas into the local
environment, run `using_and_products`, discard the merged map when the
target is not transparent, and insert the target's own entries. -/
def Target._evaluate (reg : KeyRegistry)
    (ev : EvalState → Target → Option Env → (Except Err (RankMap × ProdMap)) × EvalState)
    (proj : Project) (st : EvalState) (t : Target) (envUp : Option Env) :
    (Except Err (RankMap × ProdMap)) × EvalState :=
  match t.derive_down reg envUp with
  | .error e => (.error e, st)
  | .ok envDown =>
  match t.derive_local reg envDown with
  | .error e => (.error e, st)
  | .ok envLocal0 =>
  match rewriteDeps reg envLocal0 t._deps with
  | .error e => (.error e, st)
  | .ok depsRew =>
  match evalDepsWith ev proj t.package envDown st (canonSetS depsRew) with
  | (.error e, st2) => (.error e, st2)
  | (.ok results, st2) =>
      let merged := _topo_merge (results.map Prod.fst)
      let products := unionProds (results.map Prod.snd)
      let topoMerged := _topo_sort merged
      match deriveUsings reg envLocal0 (topoMerged.map (fun x => x.2.2)) with
      | .error e => (.error e, st2)
      | .ok envLocal1 =>
          match t._using_and_products {
              package := t.package.relpath
              env := envLocal1
              product_map := products
              rank_map := ctxRankMap topoMerged } with
          | .error e => (.error e, st2)
          | .ok (ourUsing, ourProducts) =>
              let merged2 := if !t.transparent then [] else merged
              (.ok (insertA merged2 (t.ident, envUp) (0, ourUsing),
                    insertA products (t.ident, envUp) ourProducts), st2)

/-- Embedding of `Target.evaluate`, the memoised entry point: a done memo
returns the cached result; the in-progress marker is the cycle-detection
assertion; a stored exception is re-raised (and, being an
`EvaluationError`, gains a breadcrumb — dead code, since nothing
constructs `EvaluationError`); otherwise mark in-progress, run the body
with one unit of fuel less for dependencies, and store the result.  On a
non-`EvaluationError` failure the slot keeps its in-progress marker, as
in the source. -/
def Target.evaluate (reg : KeyRegistry) (proj : Project) :
    Nat → EvalState → Target → Option Env → (Except Err (RankMap × ProdMap)) × EvalState
  | 0, st, _, _ => (.error .fuelExhausted, st)
  | fuel + 1, st, t, envUp =>
      match alookup st (t.ident, envUp) with
      | some (.done r) => (.ok r, st)
      | some .inProgress =>
          (.error (.assertionError ("cycle detected in build graph evaluation: "
            ++ t.ident ++ " depends on itself")), st)
      | some (.failed e) =>
          match e with
          | .evaluationError c crumbs =>
              (.error (.evaluationError c (crumbs ++ [(t.ident, envUp)])),
               insertA st (t.ident, envUp)
                 (.failed (.evaluationError c (crumbs ++ [(t.ident, envUp)]))))
          | _ => (.error e, st)
      | none =>
          match Target._evaluate reg
              (fun s a b => Target.evaluate reg proj fuel s a b) proj
              (insertA st (t.ident, envUp) .inProgress) t envUp with
          | (.ok r, st2) => (.ok r, insertA st2 (t.ident, envUp) (.done r))
          | (.error e, st2) =>
              match e with
              | .evaluationError c crumbs =>
                  (.error (.evaluationError c (crumbs ++ [(t.ident, envUp)])),
                   insertA st2 (t.ident, envUp)
                     (.failed (.evaluationError c (crumbs ++ [(t.ident, envUp)]))))
              | _ => (.error e, st2)

/-- Registry for the evaluator examples: one appending string-sequence
key `k`. -/
def exReg : KeyRegistry := ⟨[("k", appending_string_seq_key "k" none [] none)]⟩

/-- A `using_and_products` implementation contributing no using-delta and
no products. -/
def exUap : UsingContext → Except Err (Delta × List Product) := fun _ => .ok (.dnone, [])

/-- The rank recorded for a key in a rank map. -/
def rankOf (m : RankMap) (k : EKey) : Option Nat := (alookup m k).map Prod.fst

/-- Example leaf target `//p:b`. -/
def c1b : Target := {
  package := ⟨"p"⟩, name := "b", concrete := false,
  _down := .dnone, _local := .dnone,
  _using_and_products := exUap, _deps := [], transparent := true }

/-- Example target `//p:a`, depending on `//p:b` through a down-delta
that extends the environment (so `b` is evaluated by `a` in a different
environment than by the root). -/
def c1a : Target := {
  package := ⟨"p"⟩, name := "a", concrete := false,
  _down := .dmap [("k", vtuple [vstr "x"])], _local := .dnone,
  _using_and_products := exUap, _deps := canonSetS ["//p:b"], transparent := true }

/-- Example root target `//p:r`, depending on both `//p:a` and `//p:b`. -/
def c1r : Target := {
  package := ⟨"p"⟩, name := "r", concrete := false,
  _down := .dnone, _local := .dnone,
  _using_and_products := exUap, _deps := canonSetS ["//p:a", "//p:b"], transparent := true }

/-- The project holding the diamond example. -/
def c1proj : Project := ⟨[("p", [("a", c1a), ("b", c1b), ("r", c1r)])]⟩

/-- C1 (counterexample): in the evaluation of `//p:r` in the empty
environment, `//p:a` transitively depends on `//p:b` and both of the
entries `(a, E)` and `(b, E)` are in the returned rank map, yet both have
rank 1 — the claimed `rank(a) < rank(b)` fails, because `a` reaches `b`
only through a different environment (the entry `(b, E')` does get rank
2) — and the descending-rank sort applies `(a, E)`'s using-delta before
`(b, E)`'s. -/
theorem topo_rank_not_ordered_across_envs :
    ("//p:b" ∈ c1a.deps) ∧
    ∃ M P, (Target.evaluate exReg c1proj 9 [] c1r (some ⟨[]⟩)).1 = .ok (M, P) ∧
      rankOf M ("//p:a", some ⟨[]⟩) = some 1 ∧
      rankOf M ("//p:b", some ⟨[]⟩) = some 1 ∧
      ¬ ((1 : Nat) < 1) ∧
      (_topo_sort M).map Prod.fst =
        [("//p:b", some ⟨[("k", vtuple [vstr "x"])]⟩), ("//p:a", some ⟨[]⟩),
         ("//p:b", some ⟨[]⟩), ("//p:r", some ⟨[]⟩)] := by
  refine ⟨by decide, _, _, rfl, rfl, rfl, by decide, ?_⟩
  decide

/-- The down function of the concrete example target: replaces any
incoming environment with the (empty) named environment. -/
def c2down : Option Env → Except Err Env := fun _ => .ok ⟨[]⟩

/-- Example leaf target `//q:dep`. -/
def c2dep : Target := {
  package := ⟨"q"⟩, name := "dep", concrete := false,
  _down := .dnone, _local := .dnone,
  _using_and_products := exUap, _deps := [], transparent := true }

/-- Example concrete target `//q:top` with one dependency; equal to what
`Target.__init__` constructs (see the counterexample theorem). -/
def c2t : Target := {
  package := ⟨"q"⟩, name := "top", concrete := true,
  _down := .func c2down, _local := .dnone,
  _using_and_products := exUap, _deps := canonSetS ["//q:dep"], transparent := true }

/-- The project holding the concrete-target example. -/
def c2proj : Project := ⟨[("q", [("dep", c2dep), ("top", c2t)])]⟩

/-- C2 (counterexample): the constructor initialises `_transparent` to
`True` for every target, concrete ones included, so the merged rank map
is not discarded: evaluating the concrete target `//q:top` returns a rank
map holding the dependency entry `(//q:dep, E)` at rank 1 alongside the
target's own entry — not only `T`'s own entry as claimed. -/
theorem concrete_eval_keeps_dep_entries :
    Target.init ⟨"q"⟩ "top" exUap (.func c2down) .dnone [":dep"] true = .ok c2t ∧
    c2t.concrete = true ∧
    c2t.transparent = true ∧
    ∃ M P, (Target.evaluate exReg c2proj 5 [] c2t none).1 = .ok (M, P) ∧
      M.map Prod.fst = [("//q:dep", some ⟨[]⟩), ("//q:top", none)] ∧
      rankOf M ("//q:dep", some ⟨[]⟩) = some 1 ∧
      M.map Prod.fst ≠ [("//q:top", (none : Option Env))] := by
  refine ⟨rfl, rfl, rfl, _, _, rfl, by decide, rfl, by decide⟩

/-- Example cycle target `//c:aa`, depending on `//c:bb`. -/
def c3a : Target := {
  package := ⟨"c"⟩, name := "aa", concrete := false,
  _down := .dnone, _local := .dnone,
  _using_and_products := exUap, _deps := canonSetS ["//c:bb"], transparent := true }

/-- Example cycle target `//c:bb`, depending back on `//c:aa`. -/
def c3b : Target := {
  package := ⟨"c"⟩, name := "bb", concrete := false,
  _down := .dnone, _local := .dnone,
  _using_and_products := exUap, _deps := canonSetS ["//c:aa"], transparent := true }

/-- The project holding the two-target cycle. -/
def c3proj : Project := ⟨[("c", [("aa", c3a), ("bb", c3b)])]⟩

/-- C3 (counterexample): on the two-target cycle the evaluation fails
with the cycle-detection `AssertionError`, not with an `EvaluationError`
— nothing in the source constructs `EvaluationError` (the wrapping code
is commented out), so no error carrying `(A, E)` and `(B, E)` breadcrumbs
propagates to the caller. -/
theorem cycle_error_without_breadcrumbs :
    (Target.evaluate exReg c3proj 5 [] c3a (some ⟨[]⟩)).1
      = .error (.assertionError
          ("cycle detected in build graph evaluation: //c:aa depends on itself")) ∧
    ("//c:bb" ∈ c3a.deps) ∧ ("//c:aa" ∈ c3b.deps) ∧
    ∀ cause crumbs, (Target.evaluate exReg c3proj 5 [] c3a (some ⟨[]⟩)).1
      ≠ .error (.evaluationError cause crumbs) := by
  refine ⟨rfl, by decide, by decide, ?_⟩
  intro cause crumbs h
  have h2 : (Except.error (Err.assertionError
      ("cycle detected in build graph evaluation: //c:aa depends on itself"))
      : Except Err (RankMap × ProdMap))
      = .error (.evaluationError cause crumbs) := h
  simp at h2

theorem alookup_insertA_self {κ β : Type} [DecidableEq κ] (l : List (κ × β))
    (k : κ) (v : β) : alookup (insertA l k v) k = some v := by
  induction l with
  | nil => simp [insertA, alookup]
  | cons kv rest ih =>
      obtain ⟨a, b⟩ := kv
      by_cases hk : k = a
      · subst hk
        simp [insertA, alookup]
      · simp [insertA, alookup, hk, ih]

theorem alookup_insertA_ne {κ β : Type} [DecidableEq κ] (l : List (κ × β))
    (k k' : κ) (v : β) (h : k' ≠ k) :
    alookup (insertA l k v) k' = alookup l k' := by
  induction l with
  | nil => simp [insertA, alookup, h]
  | cons kv rest ih =>
      obtain ⟨a, b⟩ := kv
      by_cases hk : k = a
      · subst hk
        simp [insertA, alookup, h]
      · by_cases hk2 : k' = a
        · subst hk2
          simp [insertA, alookup, hk]
        · simp [insertA, alookup, hk, hk2, ih]

/-- Keys of an association list have no duplicates. -/
def NodupKeys {κ β : Type} (l : List (κ × β)) : Prop := (l.map Prod.fst).Nodup

theorem keys_insertA_subset {κ β : Type} [DecidableEq κ] (l : List (κ × β))
    (k : κ) (v : β) :
    ∀ x, x ∈ (insertA l k v).map Prod.fst → x = k ∨ x ∈ l.map Prod.fst := by
  induction l with
  | nil =>
      intro x hx
      simp [insertA] at hx
      exact Or.inl hx
  | cons kv rest ih =>
      obtain ⟨a, b⟩ := kv
      intro x hx
      by_cases hk : k = a
      · subst hk
        simp [insertA] at hx
        rcases hx with h | h
        · exact Or.inl h
        · exact Or.inr (by simp [h])
      · simp [insertA, hk] at hx
        rcases hx with h | h
        · exact Or.inr (by simp [h])
        · rcases ih x (by simpa using h) with h2 | h2
          · exact Or.inl h2
          · exact Or.inr (by simp; right; simpa using h2)

theorem nodupKeys_insertA {κ β : Type} [DecidableEq κ] (l : List (κ × β))
    (k : κ) (v : β) (h : NodupKeys l) : NodupKeys (insertA l k v) := by
  induction l with
  | nil => simp [insertA, NodupKeys]
  | cons kv rest ih =>
      obtain ⟨a, b⟩ := kv
      unfold NodupKeys at h
      simp only [List.map_cons, List.nodup_cons] at h
      by_cases hk : k = a
      · subst hk
        unfold NodupKeys
        have : insertA ((k, b) :: rest) k v = (k, v) :: rest := by simp [insertA]
        rw [this]
        simp only [List.map_cons, List.nodup_cons]
        exact h
      · unfold NodupKeys
        simp only [insertA, if_neg hk, List.map_cons, List.nodup_cons]
        constructor
        · intro hc
          rcases keys_insertA_subset rest k v a hc with h2 | h2
          · exact hk h2.symm
          · exact h.1 h2
        · exact ih h.2

theorem alookup_none_of_not_mem_keys {κ β : Type} [DecidableEq κ]
    {l : List (κ × β)} {k : κ} (h : k ∉ l.map Prod.fst) : alookup l k = none := by
  induction l with
  | nil => rfl
  | cons kv rest ih =>
      obtain ⟨a, b⟩ := kv
      have h1 : ¬ k = a := fun he => h (by rw [List.map_cons, he]; exact List.mem_cons_self _ _)
      have h2 : k ∉ rest.map Prod.fst :=
        fun hm => h (by rw [List.map_cons]; exact List.mem_cons_of_mem _ hm)
      simp [alookup, h1, ih h2]

theorem mem_keys_of_alookup {κ β : Type} [DecidableEq κ]
    {l : List (κ × β)} {k : κ} {v : β} (h : alookup l k = some v) :
    k ∈ l.map Prod.fst := by
  have := mem_of_alookup h
  exact List.mem_map.mpr ⟨(k, v), this, rfl⟩

/-- State evolution of one or more `Target.evaluate` calls: completed
memo entries persist with their values, and in-progress markers persist
(only the call that set a marker replaces it, and it did so when the key
was absent). -/
def MonoSt (s s' : EvalState) : Prop :=
  (∀ k r, alookup s k = some (.done r) → alookup s' k = some (.done r)) ∧
  (∀ k, alookup s k = some .inProgress → alookup s' k = some .inProgress)

theorem MonoSt.rfl (s : EvalState) : MonoSt s s := ⟨fun _ _ h => h, fun _ h => h⟩

theorem MonoSt.comp {s1 s2 s3 : EvalState} (h1 : MonoSt s1 s2) (h2 : MonoSt s2 s3) :
    MonoSt s1 s3 :=
  ⟨fun k r h => h2.1 k r (h1.1 k r h), fun k h => h2.2 k (h1.2 k h)⟩

/-- The child keys of a dependency identifier list: each identifier is
resolved through the declaring package and paired with the
down-environment the dependency is evaluated in. -/
def childKeys (proj : Project) (pkg : Package) (envDown : Env) :
    List String → Except Err (List EKey)
  | [] => .ok []
  | id :: rest => do
      let td ← Package.find_target proj pkg id
      let ks ← childKeys proj pkg envDown rest
      .ok ((td.ident, some envDown) :: ks)

/-- The entry-level dependency structure of a `(target, env)` pair,
recomputed from the project: resolve the target, derive the down- and
first local environments, rewrite the deps, and resolve each into a
child key.  This is the pure dependency relation the evaluator walks. -/
def entryChildren (reg : KeyRegistry) (proj : Project) (k : EKey) :
    Except Err (List EKey) :=
  match proj.find_target k.1 with
  | .error e => .error e
  | .ok t =>
  match t.derive_down reg k.2 with
  | .error e => .error e
  | .ok envDown =>
  match t.derive_local reg envDown with
  | .error e => .error e
  | .ok envLocal0 =>
  match rewriteDeps reg envLocal0 t._deps with
  | .error e => .error e
  | .ok depsRew => childKeys proj t.package envDown (canonSetS depsRew)

/-- One entry-level dependency step: `b` is among the child keys of `a`. -/
def DirectDep (reg : KeyRegistry) (proj : Project) (a b : EKey) : Prop :=
  ∃ cs, entryChildren reg proj a = .ok cs ∧ b ∈ cs

/-- Correctness of one rank map returned for root `k₀`: the root is
present at rank 0, and every entry's children (under the entry-level
dependency structure) are present at strictly greater rank. -/
def GoodResult (reg : KeyRegistry) (proj : Project) (k₀ : EKey) (M : RankMap) : Prop :=
  (∃ u, alookup M k₀ = some (0, u)) ∧
  (∀ ka ra ua, alookup M ka = some (ra, ua) →
    ∀ cs, entryChildren reg proj ka = .ok cs →
    ∀ kb ∈ cs, ∃ rb ub, alookup M kb = some (rb, ub) ∧ ra < rb)

/-- Invariant of the memo state: every completed entry holds a correct,
duplicate-free rank map all of whose keys are themselves completed. -/
def StateInv (reg : KeyRegistry) (proj : Project) (s : EvalState) : Prop :=
  ∀ k M P, alookup s k = some (.done (M, P)) →
    GoodResult reg proj k M ∧ NodupKeys M ∧
    (∀ k' v, alookup M k' = some v → ∃ r', alookup s k' = some (.done r'))

/-- Well-formedness of a project for the evaluator theorems: every target
reachable through `Package.find_target` is found again under its own
identifier, and is transparent (as every constructed target is). -/
def SelfFind (proj : Project) : Prop :=
  ∀ (pkg : Package) (id : String) (td : Target),
    Package.find_target proj pkg id = .ok td →
    proj.find_target td.ident = .ok td ∧ td.transparent = true

theorem StateInv.empty (reg : KeyRegistry) (proj : Project) :
    StateInv reg proj [] := by
  intro k M P h
  simp [alookup] at h

theorem StateInv.insert_inProgress {reg : KeyRegistry} {proj : Project}
    {s : EvalState} {k : EKey} (hs : StateInv reg proj s)
    (habs : alookup s k = none) :
    StateInv reg proj (insertA s k .inProgress) := by
  intro k2 M P h
  by_cases hk : k2 = k
  · subst hk
    rw [alookup_insertA_self] at h
    exact MemoE.noConfusion (Option.some.inj h)
  · rw [alookup_insertA_ne s k k2 _ hk] at h
    obtain ⟨hg, hn, hd⟩ := hs k2 M P h
    refine ⟨hg, hn, ?_⟩
    intro k' v hv
    obtain ⟨r', hr'⟩ := hd k' v hv
    have hk' : k' ≠ k := by
      intro he
      subst he
      rw [habs] at hr'
      exact Option.noConfusion hr'
    rw [alookup_insertA_ne s k k' _ hk']
    exact ⟨r', hr'⟩

theorem StateInv.insert_failed {reg : KeyRegistry} {proj : Project}
    {s : EvalState} {k : EKey} {e : Err} (hs : StateInv reg proj s)
    (hip : alookup s k = some .inProgress ∨ ∃ e0, alookup s k = some (.failed e0)) :
    StateInv reg proj (insertA s k (.failed e)) := by
  intro k2 M P h
  by_cases hk : k2 = k
  · subst hk
    rw [alookup_insertA_self] at h
    exact MemoE.noConfusion (Option.some.inj h)
  · rw [alookup_insertA_ne s k k2 _ hk] at h
    obtain ⟨hg, hn, hd⟩ := hs k2 M P h
    refine ⟨hg, hn, ?_⟩
    intro k' v hv
    obtain ⟨r', hr'⟩ := hd k' v hv
    have hk' : k' ≠ k := by
      intro he
      subst he
      rcases hip with h2 | ⟨e0, h2⟩ <;> rw [h2] at hr' <;>
        exact MemoE.noConfusion (Option.some.inj hr')
    rw [alookup_insertA_ne s k k' _ hk']
    exact ⟨r', hr'⟩

theorem foldMerge_isSome :
    ∀ (flat : List (EKey × (Nat × Delta))) (acc : RankMap) (k : EKey),
      (alookup (flat.foldl mergeStep acc) k).isSome ↔
        ((alookup acc k).isSome ∨ ∃ rv, (k, rv) ∈ flat) := by
  intro flat
  induction flat with
  | nil => simp
  | cons e rest ih =>
      intro acc k
      obtain ⟨k0, r0, u0⟩ := e
      rw [List.foldl_cons, ih]
      by_cases hk : k = k0
      · subst hk
        constructor
        · intro _
          right
          exact ⟨(r0, u0), by simp⟩
        · intro _
          left
          unfold mergeStep
          simp only
          rw [alookup_insertA_self]
          rfl
      · unfold mergeStep
        simp only
        rw [alookup_insertA_ne _ _ _ _ hk]
        constructor
        · rintro (h | ⟨rv, hrv⟩)
          · exact Or.inl h
          · exact Or.inr ⟨rv, List.mem_cons_of_mem _ hrv⟩
        · rintro (h | ⟨rv, hrv⟩)
          · exact Or.inl h
          · rcases List.mem_cons.mp hrv with h2 | h2
            · exact absurd (congrArg Prod.fst h2) hk
            · exact Or.inr ⟨rv, h2⟩

theorem foldMerge_lb :
    ∀ (flat : List (EKey × (Nat × Delta))) (acc : RankMap) (k : EKey) (R : Nat) (U : Delta),
      alookup (flat.foldl mergeStep acc) k = some (R, U) →
      (∀ r u, (k, (r, u)) ∈ flat → r + 1 ≤ R) ∧
      (∀ r0 u0, alookup acc k = some (r0, u0) → r0 ≤ R) := by
  intro flat
  induction flat with
  | nil =>
      intro acc k R U h
      rw [List.foldl_nil] at h
      refine ⟨by simp, ?_⟩
      intro r0 u0 h0
      rw [h0] at h
      injection h with h
      injection h with h1 h2
      omega
  | cons e rest ih =>
      intro acc k R U h
      obtain ⟨k0, r0, u0⟩ := e
      rw [List.foldl_cons] at h
      obtain ⟨ihm, iha⟩ := ih (mergeStep acc (k0, r0, u0)) k R U h
      by_cases hk : k = k0
      · subst hk
        cases ha : alookup acc k with
        | none =>
            have hacc' : alookup (mergeStep acc (k, r0, u0)) k = some (r0 + 1, u0) := by
              unfold mergeStep
              simp only [ha]
              rw [alookup_insertA_self]
            have hbound := iha _ _ hacc'
            constructor
            · intro r u hm
              rcases List.mem_cons.mp hm with h2 | h2
              · injection h2 with h2a h2b
                injection h2b with h2c h2d
                omega
              · exact ihm r u h2
            · intro a0 ua haa
              exact Option.noConfusion haa
        | some p =>
            obtain ⟨a0, ua⟩ := p
            have hacc' : alookup (mergeStep acc (k, r0, u0)) k
                = some (max (r0 + 1) a0, u0) := by
              unfold mergeStep
              simp only [ha]
              rw [alookup_insertA_self]
            have hbound := iha _ _ hacc'
            constructor
            · intro r u hm
              rcases List.mem_cons.mp hm with h2 | h2
              · injection h2 with h2a h2b
                injection h2b with h2c h2d
                subst h2c
                have : r + 1 ≤ max (r + 1) a0 := Nat.le_max_left _ _
                omega
              · exact ihm r u h2
            · intro a1 ua1 haa
              injection haa with haa
              injection haa with haa1 haa2
              have : a0 ≤ max (r0 + 1) a0 := Nat.le_max_right _ _
              omega
      · have hacc' : alookup (mergeStep acc (k0, r0, u0)) k = alookup acc k := by
          unfold mergeStep
          simp only
          exact alookup_insertA_ne _ _ _ _ hk
        constructor
        · intro r u hm
          rcases List.mem_cons.mp hm with h2 | h2
          · exact absurd (congrArg Prod.fst h2) hk
          · exact ihm r u h2
        · intro a0 ua ha
          exact iha a0 ua (by rw [hacc', ha])

theorem foldMerge_ub :
    ∀ (flat : List (EKey × (Nat × Delta))) (acc : RankMap) (k : EKey) (R : Nat) (U : Delta),
      alookup (flat.foldl mergeStep acc) k = some (R, U) →
      (∃ r u, (k, (r, u)) ∈ flat ∧ R = r + 1) ∨ (∃ u0, alookup acc k = some (R, u0)) := by
  intro flat
  induction flat with
  | nil =>
      intro acc k R U h
      exact Or.inr ⟨U, h⟩
  | cons e rest ih =>
      intro acc k R U h
      obtain ⟨k0, r0, u0⟩ := e
      rw [List.foldl_cons] at h
      rcases ih (mergeStep acc (k0, r0, u0)) k R U h with ⟨r, u, hm, hr⟩ | ⟨u1, hu1⟩
      · exact Or.inl ⟨r, u, List.mem_cons_of_mem _ hm, hr⟩
      · by_cases hk : k = k0
        · subst hk
          cases ha : alookup acc k with
          | none =>
              have hacc' : alookup (mergeStep acc (k, r0, u0)) k = some (r0 + 1, u0) := by
                unfold mergeStep
                simp only [ha]
                rw [alookup_insertA_self]
              rw [hacc'] at hu1
              injection hu1 with hu1
              injection hu1 with hu1a hu1b
              exact Or.inl ⟨r0, u0, by simp, hu1a.symm⟩
          | some p =>
              obtain ⟨a0, ua⟩ := p
              have hacc' : alookup (mergeStep acc (k, r0, u0)) k
                  = some (max (r0 + 1) a0, u0) := by
                unfold mergeStep
                simp only [ha]
                rw [alookup_insertA_self]
              rw [hacc'] at hu1
              injection hu1 with hu1
              injection hu1 with hu1a hu1b
              rcases Nat.le_total (r0 + 1) a0 with hle | hle
              · rw [Nat.max_eq_right hle] at hu1a
                exact Or.inr ⟨ua, by rw [hu1a]⟩
              · rw [Nat.max_eq_left hle] at hu1a
                exact Or.inl ⟨r0, u0, by simp, hu1a.symm⟩
        · have hacc' : alookup (mergeStep acc (k0, r0, u0)) k = alookup acc k := by
            unfold mergeStep
            simp only
            exact alookup_insertA_ne _ _ _ _ hk
          rw [hacc'] at hu1
          exact Or.inr ⟨u1, hu1⟩

theorem foldMerge_nodup :
    ∀ (flat : List (EKey × (Nat × Delta))) (acc : RankMap),
      NodupKeys acc → NodupKeys (flat.foldl mergeStep acc) := by
  intro flat
  induction flat with
  | nil => intro acc h; exact h
  | cons e rest ih =>
      intro acc h
      rw [List.foldl_cons]
      exact ih _ (nodupKeys_insertA _ _ _ h)

theorem topo_merge_isSome (maps : List RankMap) (k : EKey) :
    (alookup (_topo_merge maps) k).isSome ↔ ∃ m ∈ maps, ∃ rv, (k, rv) ∈ m := by
  unfold _topo_merge
  rw [foldMerge_isSome]
  constructor
  · rintro (h | ⟨rv, hrv⟩)
    · simp [alookup] at h
    · obtain ⟨m, hm, hin⟩ := List.mem_flatten.mp hrv
      exact ⟨m, hm, rv, hin⟩
  · rintro ⟨m, hm, rv, hin⟩
    exact Or.inr ⟨rv, List.mem_flatten.mpr ⟨m, hm, hin⟩⟩

theorem topo_merge_lb (maps : List RankMap) (k : EKey) (R : Nat) (U : Delta)
    (h : alookup (_topo_merge maps) k = some (R, U)) :
    ∀ m ∈ maps, ∀ r u, (k, (r, u)) ∈ m → r + 1 ≤ R := by
  intro m hm r u hin
  exact (foldMerge_lb _ [] k R U h).1 r u (List.mem_flatten.mpr ⟨m, hm, hin⟩)

theorem topo_merge_ub (maps : List RankMap) (k : EKey) (R : Nat) (U : Delta)
    (h : alookup (_topo_merge maps) k = some (R, U)) :
    ∃ m ∈ maps, ∃ r u, (k, (r, u)) ∈ m ∧ R = r + 1 := by
  rcases foldMerge_ub _ [] k R U h with ⟨r, u, hm, hr⟩ | ⟨u0, hu0⟩
  · obtain ⟨m, hmm, hin⟩ := List.mem_flatten.mp hm
    exact ⟨m, hmm, r, u, hin, hr⟩
  · simp [alookup] at hu0

theorem topo_merge_nodup (maps : List RankMap) : NodupKeys (_topo_merge maps) :=
  foldMerge_nodup _ [] (by simp [NodupKeys])

/-- The contract the dependency-evaluation function satisfies (the master
theorem proves it for `Target.evaluate` at every fuel): it preserves the
state invariant, evolves the state monotonically, and memoises successful
results under the target's key. -/
def EvSpec (reg : KeyRegistry) (proj : Project)
    (ev : EvalState → Target → Option Env → (Except Err (RankMap × ProdMap)) × EvalState) :
    Prop :=
  ∀ t e s, StateInv reg proj s → proj.find_target t.ident = .ok t →
    t.transparent = true →
    StateInv reg proj (ev s t e).2 ∧ MonoSt s (ev s t e).2 ∧
    ∀ r, (ev s t e).1 = .ok r → alookup (ev s t e).2 (t.ident, e) = some (.done r)

theorem evalDeps_spec (reg : KeyRegistry) (proj : Project) (hsf : SelfFind proj)
    (ev : EvalState → Target → Option Env → (Except Err (RankMap × ProdMap)) × EvalState)
    (hev : EvSpec reg proj ev) (pkg : Package) (envDown : Env) :
    ∀ (ds : List String) (st : EvalState), StateInv reg proj st →
      StateInv reg proj (evalDepsWith ev proj pkg envDown st ds).2 ∧
      MonoSt st (evalDepsWith ev proj pkg envDown st ds).2 ∧
      ∀ results, (evalDepsWith ev proj pkg envDown st ds).1 = .ok results →
        ∃ cs, childKeys proj pkg envDown ds = .ok cs ∧
          List.Forall₂
            (fun ck r => alookup (evalDepsWith ev proj pkg envDown st ds).2 ck
              = some (.done r)) cs results := by
  intro ds
  induction ds with
  | nil =>
      intro st hst
      refine ⟨hst, MonoSt.rfl st, ?_⟩
      intro results h
      injection h with h
      subst h
      exact ⟨[], rfl, List.Forall₂.nil⟩
  | cons id rest ih =>
      intro st hst
      unfold evalDepsWith
      cases hf : Package.find_target proj pkg id with
      | error e =>
          dsimp only
          refine ⟨hst, MonoSt.rfl st, ?_⟩
          intro results h
          exact Except.noConfusion h
      | ok td =>
          dsimp only
          obtain ⟨hfind, htr⟩ := hsf pkg id td hf
          obtain ⟨hsi1, hm1, hr1⟩ := hev td (some envDown) st hst hfind htr
          cases he : ev st td (some envDown) with
          | mk res1 st2 =>
              rw [he] at hsi1 hm1 hr1
              dsimp only at hsi1 hm1 hr1
              cases res1 with
              | error e =>
                  dsimp only
                  refine ⟨hsi1, hm1, ?_⟩
                  intro results h
                  exact Except.noConfusion h
              | ok r =>
                  dsimp only
                  obtain ⟨hsi2, hm2, hr2⟩ := ih st2 hsi1
                  cases he2 : evalDepsWith ev proj pkg envDown st2 rest with
                  | mk res2 st3 =>
                      rw [he2] at hsi2 hm2 hr2
                      dsimp only at hsi2 hm2 hr2
                      cases res2 with
                      | error e =>
                          dsimp only
                          refine ⟨hsi2, MonoSt.comp hm1 hm2, ?_⟩
                          intro results h
                          exact Except.noConfusion h
                      | ok rs =>
                          dsimp only
                          refine ⟨hsi2, MonoSt.comp hm1 hm2, ?_⟩
                          intro results h
                          injection h with h
                          subst h
                          obtain ⟨cs, hcs, hfa⟩ := hr2 rs rfl
                          refine ⟨(td.ident, some envDown) :: cs, ?_, ?_⟩
                          · simp only [childKeys, hf, hcs, Bind.bind, Except.bind]
                          · refine List.Forall₂.cons ?_ hfa
                            exact hm2.1 _ _ (hr1 r rfl)

theorem forall₂_mem_left {α β : Type} {R : α → β → Prop} :
    ∀ {l1 : List α} {l2 : List β}, List.Forall₂ R l1 l2 →
      ∀ {a : α}, a ∈ l1 → ∃ b ∈ l2, R a b := by
  intro l1 l2 h
  induction h with
  | nil => intro a ha; simp at ha
  | cons hr hrest ih =>
      intro a ha
      rcases List.mem_cons.mp ha with h2 | h2
      · subst h2
        exact ⟨_, by simp, hr⟩
      · obtain ⟨b, hb, hR⟩ := ih h2
        exact ⟨b, List.mem_cons_of_mem _ hb, hR⟩

theorem forall₂_mem_right {α β : Type} {R : α → β → Prop} :
    ∀ {l1 : List α} {l2 : List β}, List.Forall₂ R l1 l2 →
      ∀ {b : β}, b ∈ l2 → ∃ a ∈ l1, R a b := by
  intro l1 l2 h
  induction h with
  | nil => intro b hb; simp at hb
  | cons hr hrest ih =>
      intro b hb
      rcases List.mem_cons.mp hb with h2 | h2
      · subst h2
        exact ⟨_, by simp, hr⟩
      · obtain ⟨a, ha, hR⟩ := ih h2
        exact ⟨a, List.mem_cons_of_mem _ ha, hR⟩

theorem tEvaluate_spec (reg : KeyRegistry) (proj : Project) (hsf : SelfFind proj)
    (ev : EvalState → Target → Option Env → (Except Err (RankMap × ProdMap)) × EvalState)
    (hev : EvSpec reg proj ev)
    (t : Target) (envUp : Option Env) (st : EvalState)
    (hst : StateInv reg proj st)
    (hself : proj.find_target t.ident = .ok t) (htr : t.transparent = true)
    (hip : alookup st (t.ident, envUp) = some .inProgress) :
    StateInv reg proj (Target._evaluate reg ev proj st t envUp).2 ∧
    MonoSt st (Target._evaluate reg ev proj st t envUp).2 ∧
    alookup (Target._evaluate reg ev proj st t envUp).2 (t.ident, envUp)
      = some .inProgress ∧
    ∀ M P, (Target._evaluate reg ev proj st t envUp).1 = .ok (M, P) →
      GoodResult reg proj (t.ident, envUp) M ∧ NodupKeys M ∧
      (∀ k' v, alookup M k' = some v →
        k' = (t.ident, envUp) ∨
        ∃ r', alookup (Target._evaluate reg ev proj st t envUp).2 k'
          = some (.done r')) := by
  unfold Target._evaluate
  cases hdd : t.derive_down reg envUp with
  | error e =>
      dsimp only
      exact ⟨hst, MonoSt.rfl st, hip, fun M P h => Except.noConfusion h⟩
  | ok envDown =>
  dsimp only
  cases hdl : t.derive_local reg envDown with
  | error e =>
      dsimp only
      exact ⟨hst, MonoSt.rfl st, hip, fun M P h => Except.noConfusion h⟩
  | ok envLocal0 =>
  dsimp only
  cases hrw : rewriteDeps reg envLocal0 t._deps with
  | error e =>
      dsimp only
      exact ⟨hst, MonoSt.rfl st, hip, fun M P h => Except.noConfusion h⟩
  | ok depsRew =>
  dsimp only
  have hloop := evalDeps_spec reg proj hsf ev hev t.package envDown
    (canonSetS depsRew) st hst
  cases hed : evalDepsWith ev proj t.package envDown st (canonSetS depsRew) with
  | mk res st2 =>
  rw [hed] at hloop
  dsimp only at hloop
  obtain ⟨hsi2, hm2, hres⟩ := hloop
  have hip2 : alookup st2 (t.ident, envUp) = some .inProgress := hm2.2 _ hip
  cases res with
  | error e =>
      dsimp only
      exact ⟨hsi2, hm2, hip2, fun M P h => Except.noConfusion h⟩
  | ok results =>
  dsimp only
  obtain ⟨cs, hcs, hfa⟩ := hres results rfl
  cases hfold : deriveUsings reg envLocal0
      ((_topo_sort (_topo_merge (results.map Prod.fst))).map (fun x => x.2.2)) with
  | error e =>
      dsimp only
      exact ⟨hsi2, hm2, hip2, fun M P h => Except.noConfusion h⟩
  | ok envLocal1 =>
  dsimp only
  cases huap : t._using_and_products {
      package := t.package.relpath
      env := envLocal1
      product_map := unionProds (results.map Prod.snd)
      rank_map := ctxRankMap (_topo_sort (_topo_merge (results.map Prod.fst))) } with
  | error e =>
      dsimp only
      exact ⟨hsi2, hm2, hip2, fun M P h => Except.noConfusion h⟩
  | ok pr =>
  obtain ⟨ourUsing, ourProducts⟩ := pr
  dsimp only
  rw [htr]
  simp only [Bool.not_true, Bool.false_eq_true, if_false]
  refine ⟨hsi2, hm2, hip2, ?_⟩
  intro M P h
  injection h with h
  injection h with hM hP
  subst hM
  -- facts about the merged map
  have hdone_of_mem : ∀ (m : RankMap), m ∈ results.map Prod.fst →
      ∃ ck Pm, alookup st2 ck = some (.done (m, Pm)) := by
    intro m hm
    obtain ⟨resPair, hrp, hfst⟩ := List.mem_map.mp hm
    obtain ⟨m1, P1⟩ := resPair
    simp only at hfst
    subst hfst
    obtain ⟨ck, hck, hdone⟩ := forall₂_mem_right hfa hrp
    exact ⟨ck, P1, hdone⟩
  have hkey_done : ∀ k' v,
      alookup (_topo_merge (results.map Prod.fst)) k' = some v →
      ∃ r', alookup st2 k' = some (.done r') := by
    intro k' v hk'
    obtain ⟨R, U⟩ := v
    obtain ⟨m, hmem, r, u, hin, hR⟩ :=
      topo_merge_ub (results.map Prod.fst) k' R U hk'
    obtain ⟨ck, Pm, hdone⟩ := hdone_of_mem m hmem
    obtain ⟨hg, hn, hkd⟩ := hsi2 ck m Pm hdone
    have := hkd k' (r, u) (alookup_eq_of_mem_nodup hn hin)
    exact this
  have hne_key : ∀ k' v,
      alookup (_topo_merge (results.map Prod.fst)) k' = some v →
      k' ≠ (t.ident, envUp) := by
    intro k' v hk' he
    subst he
    obtain ⟨r', hr'⟩ := hkey_done _ v hk'
    rw [hip2] at hr'
    exact MemoE.noConfusion (Option.some.inj hr')
  have hec : entryChildren reg proj (t.ident, envUp) = .ok cs := by
    unfold entryChildren
    dsimp only
    rw [hself]
    dsimp only
    rw [hdd]
    dsimp only
    rw [hdl]
    dsimp only
    rw [hrw]
    dsimp only
    exact hcs
  refine ⟨?_, ?_, ?_⟩
  · -- GoodResult
    constructor
    · exact ⟨ourUsing, alookup_insertA_self _ _ _⟩
    · intro ka ra ua hka cs2 hcs2 kb hkb
      by_cases hak : ka = (t.ident, envUp)
      · -- the root entry
        subst hak
        rw [alookup_insertA_self] at hka
        injection hka with hka
        injection hka with hka1 hka2
        rw [hec] at hcs2
        injection hcs2 with hcs2
        subst hcs2
        obtain ⟨r2, hr2, hdone⟩ := forall₂_mem_left hfa hkb
        obtain ⟨Mb, Pb⟩ := r2
        obtain ⟨hgb, hnb, hkdb⟩ := hsi2 kb Mb Pb hdone
        obtain ⟨ub', hub'⟩ := hgb.1
        have hinb : (kb, (0, ub')) ∈ Mb := mem_of_alookup hub'
        have hsome : (alookup (_topo_merge (results.map Prod.fst)) kb).isSome := by
          rw [topo_merge_isSome]
          exact ⟨Mb, List.mem_map.mpr ⟨(Mb, Pb), hr2, rfl⟩, (0, ub'), hinb⟩
        obtain ⟨⟨RB, UB⟩, hRB⟩ := Option.isSome_iff_exists.mp hsome
        have hlb := topo_merge_lb (results.map Prod.fst) kb RB UB hRB
          Mb (List.mem_map.mpr ⟨(Mb, Pb), hr2, rfl⟩) 0 ub' hinb
        have hkbne : kb ≠ (t.ident, envUp) := hne_key kb (RB, UB) hRB
        refine ⟨RB, UB, ?_, ?_⟩
        · rw [alookup_insertA_ne _ _ _ _ hkbne]
          exact hRB
        · omega
      · -- a merged entry
        rw [alookup_insertA_ne _ _ _ _ hak] at hka
        obtain ⟨m, hmem, ra', ua', hin, hra⟩ :=
          topo_merge_ub (results.map Prod.fst) ka ra ua hka
        obtain ⟨ck, Pm, hdone⟩ := hdone_of_mem m hmem
        obtain ⟨hg, hn, hkd⟩ := hsi2 ck m Pm hdone
        have hma : alookup m ka = some (ra', ua') := alookup_eq_of_mem_nodup hn hin
        obtain ⟨rb', ub', hmb, hlt⟩ := hg.2 ka ra' ua' hma cs2 hcs2 kb hkb
        have hinb : (kb, (rb', ub')) ∈ m := mem_of_alookup hmb
        have hsome : (alookup (_topo_merge (results.map Prod.fst)) kb).isSome := by
          rw [topo_merge_isSome]
          exact ⟨m, hmem, (rb', ub'), hinb⟩
        obtain ⟨⟨RB, UB⟩, hRB⟩ := Option.isSome_iff_exists.mp hsome
        have hlb := topo_merge_lb (results.map Prod.fst) kb RB UB hRB
          m hmem rb' ub' hinb
        have hkbne : kb ≠ (t.ident, envUp) := hne_key kb (RB, UB) hRB
        refine ⟨RB, UB, ?_, ?_⟩
        · rw [alookup_insertA_ne _ _ _ _ hkbne]
          exact hRB
        · omega
  · exact nodupKeys_insertA _ _ _ (topo_merge_nodup _)
  · intro k' v hk'
    by_cases hkk : k' = (t.ident, envUp)
    · exact Or.inl hkk
    · rw [alookup_insertA_ne _ _ _ _ hkk] at hk'
      exact Or.inr (hkey_done k' v hk')

theorem mono_insertA_absent {s : EvalState} {k : EKey} {v : MemoE}
    (h : alookup s k = none) : MonoSt s (insertA s k v) := by
  constructor
  · intro k' r hk'
    have hne : k' ≠ k := by
      intro he
      subst he
      rw [h] at hk'
      exact Option.noConfusion hk'
    rw [alookup_insertA_ne _ _ _ _ hne]
    exact hk'
  · intro k' hk'
    have hne : k' ≠ k := by
      intro he
      subst he
      rw [h] at hk'
      exact Option.noConfusion hk'
    rw [alookup_insertA_ne _ _ _ _ hne]
    exact hk'

theorem evaluate_spec (reg : KeyRegistry) (proj : Project) (hsf : SelfFind proj) :
    ∀ fuel : Nat, EvSpec reg proj (fun s t e => Target.evaluate reg proj fuel s t e) := by
  intro fuel
  induction fuel with
  | zero =>
      intro t e s hst hfind htr
      exact ⟨hst, MonoSt.rfl s, fun r h => Except.noConfusion h⟩
  | succ fuel ih =>
      intro t e s hst hfind htr
      show StateInv reg proj (Target.evaluate reg proj (fuel + 1) s t e).2 ∧ _
      unfold Target.evaluate
      cases hmem : alookup s (t.ident, e) with
      | some me =>
          cases me with
          | done r =>
              dsimp only
              refine ⟨hst, MonoSt.rfl s, ?_⟩
              intro r' h
              injection h with h
              subst h
              exact hmem
          | inProgress =>
              dsimp only
              exact ⟨hst, MonoSt.rfl s, fun r h => Except.noConfusion h⟩
          | failed err =>
              cases err with
              | evaluationError c crumbs =>
                  dsimp only
                  refine ⟨?_, ?_, fun r h => Except.noConfusion h⟩
                  · exact hst.insert_failed (Or.inr ⟨_, hmem⟩)
                  · constructor
                    · intro k' r hk'
                      have hne : k' ≠ (t.ident, e) := by
                        intro he
                        subst he
                        rw [hmem] at hk'
                        exact MemoE.noConfusion (Option.some.inj hk')
                      rw [alookup_insertA_ne _ _ _ _ hne]
                      exact hk'
                    · intro k' hk'
                      have hne : k' ≠ (t.ident, e) := by
                        intro he
                        subst he
                        rw [hmem] at hk'
                        exact MemoE.noConfusion (Option.some.inj hk')
                      rw [alookup_insertA_ne _ _ _ _ hne]
                      exact hk'
              | typeError m => dsimp only; exact ⟨hst, MonoSt.rfl s, fun r h => Except.noConfusion h⟩
              | keyError m => dsimp only; exact ⟨hst, MonoSt.rfl s, fun r h => Except.noConfusion h⟩
              | valueError m => dsimp only; exact ⟨hst, MonoSt.rfl s, fun r h => Except.noConfusion h⟩
              | assertionError m => dsimp only; exact ⟨hst, MonoSt.rfl s, fun r h => Except.noConfusion h⟩
              | exceptionMsg m => dsimp only; exact ⟨hst, MonoSt.rfl s, fun r h => Except.noConfusion h⟩
              | attributeError m => dsimp only; exact ⟨hst, MonoSt.rfl s, fun r h => Except.noConfusion h⟩
              | fuelExhausted => dsimp only; exact ⟨hst, MonoSt.rfl s, fun r h => Except.noConfusion h⟩
      | none =>
          dsimp only
          have hst1 : StateInv reg proj (insertA s (t.ident, e) .inProgress) :=
            hst.insert_inProgress hmem
          have hip1 : alookup (insertA s (t.ident, e) .inProgress) (t.ident, e)
              = some .inProgress := alookup_insertA_self _ _ _
          have hbody := tEvaluate_spec reg proj hsf
            (fun s a b => Target.evaluate reg proj fuel s a b) ih t e
            (insertA s (t.ident, e) .inProgress) hst1 hfind htr hip1
          cases hb : Target._evaluate reg
              (fun s a b => Target.evaluate reg proj fuel s a b) proj
              (insertA s (t.ident, e) .inProgress) t e with
          | mk res st2 =>
          rw [hb] at hbody
          dsimp only at hbody
          obtain ⟨hsi2, hm2, hip2, hok⟩ := hbody
          have hmono : MonoSt s st2 := MonoSt.comp (mono_insertA_absent hmem) hm2
          cases res with
          | ok r =>
              obtain ⟨M, P⟩ := r
              dsimp only
              obtain ⟨hgood, hnodup, hkeys⟩ := hok M P rfl
              refine ⟨?_, ?_, ?_⟩
              · -- state invariant after storing the result
                intro k M' P' hk
                by_cases hkk : k = (t.ident, e)
                · subst hkk
                  rw [alookup_insertA_self] at hk
                  injection hk with hk
                  injection hk with hk
                  injection hk with hkM hkP
                  subst hkM
                  subst hkP
                  refine ⟨hgood, hnodup, ?_⟩
                  intro k' v hv
                  rcases hkeys k' v hv with h1 | ⟨r', hr'⟩
                  · subst h1
                    exact ⟨(M, P), by rw [alookup_insertA_self]⟩
                  · have hne : k' ≠ (t.ident, e) := by
                      intro he
                      subst he
                      rw [hip2] at hr'
                      exact MemoE.noConfusion (Option.some.inj hr')
                    rw [alookup_insertA_ne _ _ _ _ hne]
                    exact ⟨r', hr'⟩
                · rw [alookup_insertA_ne _ _ _ _ hkk] at hk
                  obtain ⟨hg, hn, hd⟩ := hsi2 k M' P' hk
                  refine ⟨hg, hn, ?_⟩
                  intro k' v hv
                  obtain ⟨r', hr'⟩ := hd k' v hv
                  have hne : k' ≠ (t.ident, e) := by
                    intro he
                    subst he
                    rw [hip2] at hr'
                    exact MemoE.noConfusion (Option.some.inj hr')
                  rw [alookup_insertA_ne _ _ _ _ hne]
                  exact ⟨r', hr'⟩
              · -- monotonicity
                constructor
                · intro k r hk
                  have hr2 := hmono.1 k r hk
                  have hne : k ≠ (t.ident, e) := by
                    intro he
                    subst he
                    rw [hip2] at hr2
                    exact MemoE.noConfusion (Option.some.inj hr2)
                  rw [alookup_insertA_ne _ _ _ _ hne]
                  exact hr2
                · intro k hk
                  have hr2 := hmono.2 k hk
                  have hne : k ≠ (t.ident, e) := by
                    intro he
                    subst he
                    rw [hmem] at hk
                    exact Option.noConfusion hk
                  rw [alookup_insertA_ne _ _ _ _ hne]
                  exact hr2
              · intro r' h
                injection h with h
                subst h
                rw [alookup_insertA_self]
          | error err =>
              cases err with
              | evaluationError c crumbs =>
                  dsimp only
                  refine ⟨?_, ?_, fun r h => Except.noConfusion h⟩
                  · exact hsi2.insert_failed (Or.inl hip2)
                  · constructor
                    · intro k r hk
                      have hr2 := hmono.1 k r hk
                      have hne : k ≠ (t.ident, e) := by
                        intro he
                        subst he
                        rw [hip2] at hr2
                        exact MemoE.noConfusion (Option.some.inj hr2)
                      rw [alookup_insertA_ne _ _ _ _ hne]
                      exact hr2
                    · intro k hk
                      have hne : k ≠ (t.ident, e) := by
                        intro he
                        subst he
                        rw [hmem] at hk
                        exact Option.noConfusion hk
                      rw [alookup_insertA_ne _ _ _ _ hne]
                      exact hmono.2 k hk
              | typeError m => dsimp only; exact ⟨hsi2, hmono, fun r h => Except.noConfusion h⟩
              | keyError m => dsimp only; exact ⟨hsi2, hmono, fun r h => Except.noConfusion h⟩
              | valueError m => dsimp only; exact ⟨hsi2, hmono, fun r h => Except.noConfusion h⟩
              | assertionError m => dsimp only; exact ⟨hsi2, hmono, fun r h => Except.noConfusion h⟩
              | exceptionMsg m => dsimp only; exact ⟨hsi2, hmono, fun r h => Except.noConfusion h⟩
              | attributeError m => dsimp only; exact ⟨hsi2, hmono, fun r h => Except.noConfusion h⟩
              | fuelExhausted => dsimp only; exact ⟨hsi2, hmono, fun r h => Except.noConfusion h⟩

theorem lookupPT_mem {proj : Project} {i p n : String} {td : Target}
    (h : lookupPT proj i p n = .ok td) :
    ∃ tgts, alookup proj.packages p = some tgts ∧ alookup tgts n = some td := by
  unfold lookupPT at h
  split at h
  next => exact Except.noConfusion h
  next tgts hp =>
    split at h
    next => exact Except.noConfusion h
    next t0 ht =>
      injection h with h
      subst h
      exact ⟨tgts, hp, ht⟩

theorem find_target_ok_mem {proj : Project} {s : String} {td : Target}
    (h : Project.find_target proj s = .ok td) :
    ∃ p tgts n, alookup proj.packages p = some tgts ∧ alookup tgts n = some td := by
  unfold Project.find_target at h
  split at h
  · split at h
    · obtain ⟨tgts, hp, ht⟩ := lookupPT_mem h
      exact ⟨_, tgts, _, hp, ht⟩
    · obtain ⟨tgts, hp, ht⟩ := lookupPT_mem h
      exact ⟨_, tgts, _, hp, ht⟩
    · exact Except.noConfusion h
  · exact Except.noConfusion h

theorem package_find_target_ok_mem {proj : Project} {pkg : Package} {i : String}
    {td : Target} (h : Package.find_target proj pkg i = .ok td) :
    ∃ p tgts n, alookup proj.packages p = some tgts ∧ alookup tgts n = some td := by
  unfold Package.find_target at h
  split at h
  · exact find_target_ok_mem h
  · exact find_target_ok_mem h

/-- `SelfFind` follows from checking every target stored in the package
table. -/
theorem SelfFind.of_table {proj : Project}
    (h : ∀ p tgts, alookup proj.packages p = some tgts →
         ∀ n td, alookup tgts n = some td →
         proj.find_target td.ident = .ok td ∧ td.transparent = true) :
    SelfFind proj := by
  intro pkg i td hf
  obtain ⟨p, tgts, n, hp, ht⟩ := package_find_target_ok_mem hf
  exact h p tgts hp n td ht

theorem selffind_c1proj : SelfFind c1proj := by
  apply SelfFind.of_table
  intro p tgts hp n td ht
  have hp2 := mem_of_alookup hp
  simp only [c1proj, List.mem_singleton, Prod.mk.injEq] at hp2
  obtain ⟨hp3, hp4⟩ := hp2
  subst hp4
  have ht2 := mem_of_alookup ht
  simp only [List.mem_cons, List.mem_singleton, List.not_mem_nil, or_false,
    Prod.mk.injEq] at ht2
  rcases ht2 with ⟨h1, h2⟩ | ⟨h1, h2⟩ | ⟨h1, h2⟩ <;> subst h2 <;> exact ⟨rfl, rfl⟩

theorem selffind_c2proj : SelfFind c2proj := by
  apply SelfFind.of_table
  intro p tgts hp n td ht
  have hp2 := mem_of_alookup hp
  simp only [c2proj, List.mem_singleton, Prod.mk.injEq] at hp2
  obtain ⟨hp3, hp4⟩ := hp2
  subst hp4
  have ht2 := mem_of_alookup ht
  simp only [List.mem_cons, List.mem_singleton, List.not_mem_nil, or_false,
    Prod.mk.injEq] at ht2
  rcases ht2 with ⟨h1, h2⟩ | ⟨h1, h2⟩ <;> subst h2 <;> exact ⟨rfl, rfl⟩

/-- Transitive entry-level dependencies inside one correct rank map have
strictly increasing ranks. -/
theorem goodResult_rank_lt {reg : KeyRegistry} {proj : Project} {k₀ : EKey}
    {M : RankMap} (hg : GoodResult reg proj k₀ M) {a b : EKey}
    (hdep : Relation.TransGen (DirectDep reg proj) a b) :
    ∀ ra ua, alookup M a = some (ra, ua) →
      ∃ rb ub, alookup M b = some (rb, ub) ∧ ra < rb := by
  induction hdep with
  | single h =>
      intro ra ua ha
      obtain ⟨cs, hcs, hb⟩ := h
      exact hg.2 a ra ua ha cs hcs _ hb
  | tail hab hbc ih =>
      intro ra ua ha
      obtain ⟨rb, ub, hb, hlt⟩ := ih ra ua ha
      obtain ⟨cs, hcs, hc⟩ := hbc
      obtain ⟨rc, uc, hcm, hlt2⟩ := hg.2 _ rb ub hb cs hcs _ hc
      exact ⟨rc, uc, hcm, Nat.lt_trans hlt hlt2⟩

/-- C1 (amended): within one returned rank map the topological ordering
does hold at the entry level: whenever `(a, e_a)` transitively depends on
`(b, e_b)` through the entry-level dependency structure (each step
re-deriving the down-environment the evaluator used), and `(a, e_a)` is
in the map, then `(b, e_b)` is in the map with a strictly greater rank,
and in the descending-rank stable sort `(b, e_b)` is placed before
`(a, e_a)`, so `b`'s using-delta is applied to the local environment
first.  The claim as frozen — keyed by target across environments — is
refuted by the separate counterexample, where `a` reaches `b` only
through a different environment. -/
theorem topo_rank_ordered_entrywise (reg : KeyRegistry) (proj : Project)
    (hsf : SelfFind proj) (fuel : Nat) (t : Target) (e : Option Env)
    (s : EvalState) (hst : StateInv reg proj s)
    (hfind : proj.find_target t.ident = .ok t) (htr : t.transparent = true)
    (M : RankMap) (P : ProdMap)
    (hok : (Target.evaluate reg proj fuel s t e).1 = .ok (M, P))
    (a b : EKey) (hdep : Relation.TransGen (DirectDep reg proj) a b)
    (ra : Nat) (ua : Delta) (ha : alookup M a = some (ra, ua)) :
    ∃ rb ub, alookup M b = some (rb, ub) ∧ ra < rb ∧
      (b, (rb, ub)) ∈ _topo_sort M ∧ (a, (ra, ua)) ∈ _topo_sort M ∧
      ∀ (i j : Fin (_topo_sort M).length),
        (_topo_sort M).get i = (b, (rb, ub)) →
        (_topo_sort M).get j = (a, (ra, ua)) → (i : Nat) < (j : Nat) := by
  obtain ⟨hfin, _, hres⟩ := evaluate_spec reg proj hsf fuel t e s hst hfind htr
  have hdone := hres (M, P) hok
  obtain ⟨hg, hnd, _⟩ := hfin (t.ident, e) M P hdone
  obtain ⟨rb, ub, hb, hlt⟩ := goodResult_rank_lt hg hdep ra ua ha
  have hperm := List.perm_insertionSort entLe M
  have hma : (a, (ra, ua)) ∈ _topo_sort M := by
    unfold _topo_sort
    exact hperm.mem_iff.mpr (mem_of_alookup ha)
  have hmb : (b, (rb, ub)) ∈ _topo_sort M := by
    unfold _topo_sort
    exact hperm.mem_iff.mpr (mem_of_alookup hb)
  refine ⟨rb, ub, hb, hlt, hmb, hma, ?_⟩
  intro i j hib hja
  have hsorted : List.Pairwise entLe (_topo_sort M) := by
    unfold _topo_sort
    exact List.sorted_insertionSort entLe M
  by_contra hcon
  push_neg at hcon
  rcases Nat.lt_or_eq_of_le hcon with hlt2 | heq
  · have hpg := List.pairwise_iff_get.mp hsorted j i hlt2
    rw [hja, hib] at hpg
    unfold entLe at hpg
    dsimp only at hpg
    rcases hpg with h1 | ⟨h1, _⟩ <;> omega
  · have hij : j = i := Fin.ext heq
    subst hij
    have h2 : (rb, ub) = (ra, ua) := congrArg Prod.snd (hib.symm.trans hja)
    have h3 : rb = ra := congrArg Prod.fst h2
    omega

/-- The down-derived environment seen by `//p:b` when reached through
`//p:a` in the diamond example. -/
def c1E : Env := ⟨[("k", vtuple [vstr "x"])]⟩

/-- The rank map returned for the diamond example root. -/
def c1M : RankMap :=
  [(("//p:b", some c1E), (2, Delta.dnone)),
   (("//p:a", some ⟨[]⟩), (1, Delta.dnone)),
   (("//p:b", some ⟨[]⟩), (1, Delta.dnone)),
   (("//p:r", some ⟨[]⟩), (0, Delta.dnone))]

/-- The product map returned for the diamond example root. -/
def c1P : ProdMap :=
  [(("//p:b", some c1E), []),
   (("//p:a", some ⟨[]⟩), []),
   (("//p:b", some ⟨[]⟩), []),
   (("//p:r", some ⟨[]⟩), [])]

theorem topo_rank_ordered_entrywise_witness :
    ∃ rb ub, alookup c1M ("//p:b", some c1E) = some (rb, ub) ∧ 0 < rb ∧
      (("//p:b", some c1E), (rb, ub)) ∈ _topo_sort c1M ∧
      (("//p:r", (some ⟨[]⟩ : Option Env)), (0, Delta.dnone)) ∈ _topo_sort c1M ∧
      ∀ (i j : Fin (_topo_sort c1M).length),
        (_topo_sort c1M).get i = (("//p:b", some c1E), (rb, ub)) →
        (_topo_sort c1M).get j = (("//p:r", some ⟨[]⟩), (0, Delta.dnone)) →
        (i : Nat) < (j : Nat) :=
  topo_rank_ordered_entrywise exReg c1proj selffind_c1proj 9 c1r (some ⟨[]⟩) []
    (StateInv.empty exReg c1proj) rfl rfl c1M c1P rfl
    ("//p:r", some ⟨[]⟩) ("//p:b", some c1E)
    (Relation.TransGen.tail
      (Relation.TransGen.single
        ⟨[("//p:a", some ⟨[]⟩), ("//p:b", some ⟨[]⟩)], rfl, List.Mem.head _⟩)
      ⟨[("//p:b", some c1E)], rfl, List.Mem.head _⟩)
    0 Delta.dnone rfl

/-- C2 (amended): `Target.__init__` stores `_transparent = True` for
every constructed target — the `concrete` argument does not change it —
so the discard branch of `_evaluate` is dead: every successful
evaluation, of a concrete target as much as of any other, returns a rank
map that keeps the merged dependency entries: the target's own entry at
rank 0 together with every entry-level child at strictly positive rank
(the separate counterexample exhibits a concrete target whose returned
map holds its dependency's entry, refuting "only `T`'s own entry"). -/
theorem transparent_always_and_deps_kept
    (package : Package) (name : String)
    (uap : UsingContext → Except Err (Delta × List Product))
    (down localDelta : Delta) (deps : List String) (concrete : Bool)
    (t : Target)
    (h : Target.init package name uap down localDelta deps concrete = .ok t) :
    t.transparent = true ∧
    ∀ reg proj, SelfFind proj →
      ∀ fuel e s, StateInv reg proj s → proj.find_target t.ident = .ok t →
      ∀ M P, (Target.evaluate reg proj fuel s t e).1 = .ok (M, P) →
        (∃ u, alookup M (t.ident, e) = some (0, u)) ∧
        ∀ cs, entryChildren reg proj (t.ident, e) = .ok cs →
          ∀ kb, kb ∈ cs → ∃ rb ub, alookup M kb = some (rb, ub) ∧ 0 < rb := by
  have htr : t.transparent = true := by
    unfold Target.init at h
    repeat' split at h
    all_goals try exact Except.noConfusion h
    all_goals (injection h with h2; subst h2; rfl)
  refine ⟨htr, ?_⟩
  intro reg proj hsf fuel e s hst hfind M P hok
  obtain ⟨hfin, _, hres⟩ := evaluate_spec reg proj hsf fuel t e s hst hfind htr
  have hdone := hres (M, P) hok
  obtain ⟨hg, _, _⟩ := hfin (t.ident, e) M P hdone
  refine ⟨hg.1, ?_⟩
  intro cs hcs kb hkb
  obtain ⟨u, hu⟩ := hg.1
  exact hg.2 (t.ident, e) 0 u hu cs hcs kb hkb

/-- The rank map returned for the concrete-target example. -/
def c2M : RankMap :=
  [(("//q:dep", some ⟨[]⟩), (1, Delta.dnone)),
   (("//q:top", none), (0, Delta.dnone))]

/-- The product map returned for the concrete-target example. -/
def c2P : ProdMap :=
  [(("//q:dep", some ⟨[]⟩), []),
   (("//q:top", none), [])]

theorem transparent_always_and_deps_kept_witness :
    c2t.transparent = true ∧
    (∃ u, alookup c2M ("//q:top", (none : Option Env)) = some (0, u)) ∧
    (∃ rb ub, alookup c2M ("//q:dep", some (⟨[]⟩ : Env)) = some (rb, ub) ∧ 0 < rb) := by
  have H := transparent_always_and_deps_kept ⟨"q"⟩ "top" exUap (.func c2down) .dnone
    [":dep"] true c2t rfl
  have H2 := H.2 exReg c2proj selffind_c2proj 5 none [] (StateInv.empty exReg c2proj)
    rfl c2M c2P rfl
  exact ⟨H.1, H2.1,
    H2.2 [("//q:dep", some ⟨[]⟩)] rfl ("//q:dep", some ⟨[]⟩) (List.Mem.head _)⟩

/-- Unfolding of `Target.evaluate` at an in-progress memo hit: the
cycle-detection assertion fires. -/
theorem evaluate_succ_inProgress (reg : KeyRegistry) (proj : Project) (fuel : Nat)
    (st : EvalState) (t : Target) (e : Option Env)
    (h : alookup st (t.ident, e) = some MemoE.inProgress) :
    Target.evaluate reg proj (fuel + 1) st t e =
      (.error (.assertionError ("cycle detected in build graph evaluation: "
        ++ t.ident ++ " depends on itself")), st) := by
  unfold Target.evaluate
  rw [h]

/-- Unfolding of `Target.evaluate` at a memo miss whose body fails with a
non-`EvaluationError`: the error passes through unwrapped and the slot
keeps its in-progress marker. -/
theorem evaluate_succ_none_error (reg : KeyRegistry) (proj : Project) (fuel : Nat)
    (st : EvalState) (t : Target) (e : Option Env) (err : Err) (st2 : EvalState)
    (h : alookup st (t.ident, e) = none)
    (hb : Target._evaluate reg (fun s a b => Target.evaluate reg proj fuel s a b) proj
          (insertA st (t.ident, e) MemoE.inProgress) t e = (.error err, st2))
    (hne : ∀ c crumbs, err ≠ .evaluationError c crumbs) :
    Target.evaluate reg proj (fuel + 1) st t e = (.error err, st2) := by
  unfold Target.evaluate
  rw [h, hb]
  cases err with
  | evaluationError c crumbs => exact absurd rfl (hne c crumbs)
  | typeError m => rfl
  | keyError m => rfl
  | valueError m => rfl
  | assertionError m => rfl
  | exceptionMsg m => rfl
  | attributeError m => rfl
  | fuelExhausted => rfl

/-- Unfolding of the dependency loop when the first dependency's
evaluation fails: the error propagates with the state at the failure. -/
theorem evalDepsWith_cons_error
    (ev : EvalState → Target → Option Env → (Except Err (RankMap × ProdMap)) × EvalState)
    (proj : Project) (pkg : Package) (envDown : Env) (st : EvalState)
    (id : String) (rest : List String) (td : Target) (err : Err) (st2 : EvalState)
    (hf : Package.find_target proj pkg id = .ok td)
    (he : ev st td (some envDown) = (.error err, st2)) :
    evalDepsWith ev proj pkg envDown st (id :: rest) = (.error err, st2) := by
  unfold evalDepsWith
  rw [hf]
  simp only [he]

/-- Unfolding of `Target._evaluate` when the dependency evaluation loop
fails: the error propagates. -/
theorem tEvaluate_deps_error (reg : KeyRegistry)
    (ev : EvalState → Target → Option Env → (Except Err (RankMap × ProdMap)) × EvalState)
    (proj : Project) (st : EvalState) (t : Target) (e : Option Env)
    (envDown envLocal0 : Env) (depsRew deps2 : List String) (err : Err) (st2 : EvalState)
    (hdd : Target.derive_down reg t e = .ok envDown)
    (hdl : Target.derive_local reg t envDown = .ok envLocal0)
    (hrw : rewriteDeps reg envLocal0 t._deps = .ok depsRew)
    (hcs : canonSetS depsRew = deps2)
    (hdeps : evalDepsWith ev proj t.package envDown st deps2 = (.error err, st2)) :
    Target._evaluate reg ev proj st t e = (.error err, st2) := by
  unfold Target._evaluate
  simp only [hdd, hdl, hrw, hcs, hdeps]

/-- C3 (amended): on the two-target cycle `//c:aa` ↔ `//c:bb`, evaluating
`//c:aa` in *every* environment `E` fails, and the failure is the plain
cycle-detection `AssertionError` naming the re-entered target — the error
that propagates to the caller is never an `EvaluationError`, so it
carries no `(target, env)` breadcrumbs (nothing in the source constructs
`EvaluationError`; the wrapping code is commented out). -/
theorem cycle_detected_any_env (E : Env) :
    (Target.evaluate exReg c3proj 3 [] c3a (some E)).1
      = .error (.assertionError
          ("cycle detected in build graph evaluation: //c:aa depends on itself")) ∧
    ("//c:bb" ∈ c3a.deps) ∧ ("//c:aa" ∈ c3b.deps) ∧
    ∀ cause crumbs, (Target.evaluate exReg c3proj 3 [] c3a (some E)).1
      ≠ .error (.evaluationError cause crumbs) := by
  have hne : ∀ c crumbs, Err.assertionError
      "cycle detected in build graph evaluation: //c:aa depends on itself"
      ≠ Err.evaluationError c crumbs := fun c crumbs h => Err.noConfusion h
  have hl1 : alookup
      [(("//c:aa", some E), MemoE.inProgress), (("//c:bb", some E), MemoE.inProgress)]
      (c3a.ident, some E) = some MemoE.inProgress := by
    simp [alookup, c3a, Target.ident]
  have h1 : Target.evaluate exReg c3proj 1
      [(("//c:aa", some E), MemoE.inProgress), (("//c:bb", some E), MemoE.inProgress)]
      c3a (some E)
      = (.error (.assertionError
          ("cycle detected in build graph evaluation: //c:aa depends on itself")),
         [(("//c:aa", some E), MemoE.inProgress), (("//c:bb", some E), MemoE.inProgress)]) := by
    rw [evaluate_succ_inProgress exReg c3proj 0 _ c3a (some E) hl1]
    rfl
  have h2 : evalDepsWith (fun s a b => Target.evaluate exReg c3proj 1 s a b)
      c3proj c3b.package E
      [(("//c:aa", some E), MemoE.inProgress), (("//c:bb", some E), MemoE.inProgress)]
      ["//c:aa"]
      = (.error (.assertionError
          ("cycle detected in build graph evaluation: //c:aa depends on itself")),
         [(("//c:aa", some E), MemoE.inProgress), (("//c:bb", some E), MemoE.inProgress)]) :=
    evalDepsWith_cons_error _ c3proj c3b.package E _ "//c:aa" [] c3a _ _ rfl h1
  have h3 : Target._evaluate exReg (fun s a b => Target.evaluate exReg c3proj 1 s a b)
      c3proj
      [(("//c:aa", some E), MemoE.inProgress), (("//c:bb", some E), MemoE.inProgress)]
      c3b (some E)
      = (.error (.assertionError
          ("cycle detected in build graph evaluation: //c:aa depends on itself")),
         [(("//c:aa", some E), MemoE.inProgress), (("//c:bb", some E), MemoE.inProgress)]) :=
    tEvaluate_deps_error exReg _ c3proj _ c3b (some E) E E ["//c:aa"] ["//c:aa"] _ _
      rfl rfl rfl rfl h2
  have hl2 : alookup [(("//c:aa", some E), MemoE.inProgress)]
      (c3b.ident, some E) = none := by
    simp [alookup, c3b, c3a, Target.ident]
  have h4 : Target.evaluate exReg c3proj 2
      [(("//c:aa", some E), MemoE.inProgress)] c3b (some E)
      = (.error (.assertionError
          ("cycle detected in build graph evaluation: //c:aa depends on itself")),
         [(("//c:aa", some E), MemoE.inProgress), (("//c:bb", some E), MemoE.inProgress)]) :=
    evaluate_succ_none_error exReg c3proj 1 _ c3b (some E) _ _ hl2 h3 hne
  have h5 : evalDepsWith (fun s a b => Target.evaluate exReg c3proj 2 s a b)
      c3proj c3a.package E [(("//c:aa", some E), MemoE.inProgress)] ["//c:bb"]
      = (.error (.assertionError
          ("cycle detected in build graph evaluation: //c:aa depends on itself")),
         [(("//c:aa", some E), MemoE.inProgress), (("//c:bb", some E), MemoE.inProgress)]) :=
    evalDepsWith_cons_error _ c3proj c3a.package E _ "//c:bb" [] c3b _ _ rfl h4
  have h6 : Target._evaluate exReg (fun s a b => Target.evaluate exReg c3proj 2 s a b)
      c3proj [(("//c:aa", some E), MemoE.inProgress)] c3a (some E)
      = (.error (.assertionError
          ("cycle detected in build graph evaluation: //c:aa depends on itself")),
         [(("//c:aa", some E), MemoE.inProgress), (("//c:bb", some E), MemoE.inProgress)]) :=
    tEvaluate_deps_error exReg _ c3proj _ c3a (some E) E E ["//c:bb"] ["//c:bb"] _ _
      rfl rfl rfl rfl h5
  have hmain : Target.evaluate exReg c3proj 3 [] c3a (some E)
      = (.error (.assertionError
          ("cycle detected in build graph evaluation: //c:aa depends on itself")),
         [(("//c:aa", some E), MemoE.inProgress), (("//c:bb", some E), MemoE.inProgress)]) :=
    evaluate_succ_none_error exReg c3proj 2 [] c3a (some E) _ _ rfl h6 hne
  refine ⟨by rw [hmain], by decide, by decide, ?_⟩
  intro cause crumbs h
  rw [hmain] at h
  exact Err.noConfusion (Except.error.inj h)

end Cobble
